import Mathlib

/-!
# AnswerFinder matching subsystem — a verification development

A shallow embedding, in Lean 4, of the core matching subsystem of the
AnswerFinder extension: text normalization (`lib/normalization/text-normalizer.js`),
keyword extraction (`lib/normalization/keyword-extractor.js`), question
classification (`lib/normalization/question-classifier.js`), the confidence
calculator (`lib/matching/confidence-calculator.js`), the four tier matchers,
the matching-engine cascade (`lib/matching/matching-engine.js`) and the LRU
query cache (`lib/storage/cache-manager.js`).

Modelling conventions:
* JavaScript strings are modelled as lists of UTF-16 code units (`JsStr`,
  i.e. `List Nat`); `ofStr` converts a Lean string literal.
* JavaScript numbers are modelled as rationals (`ℚ`).  The one transcendental
  operation used by the source, `Math.log` in the keyword extractor, is taken
  as an explicit function parameter `jsLog : ℚ → ℚ`; every property proved
  about the extractor holds for an arbitrary choice of `jsLog`, hence in
  particular for the natural logarithm.
* Asynchronous collaborator calls (the IndexedDB manager, the AI service)
  are modelled as explicit function-valued fields of an environment record.
* `Date.now()` is modelled as an explicit integral timestamp argument.
-/

/-- A JavaScript string: its list of UTF-16 code units. -/
abbrev JsStr := List Nat

/-- Code units of a Lean string literal (all source literals are ASCII/BMP). -/
def ofStr (s : String) : JsStr := s.data.map Char.toNat

/- `Rat.add`, `Rat.mul`, `Rat.inv` and `Rat.sub` are `@[irreducible]` in
Batteries; re-allow unfolding so that concrete counterexamples and witnesses
evaluate by kernel reduction. -/
attribute [local semireducible] Rat.add Rat.mul Rat.inv Rat.sub

/-! ## `lib/storage/cache-manager.js` — the LRU query cache

JavaScript `Map` preserves insertion order; it is modelled as an association
list, with `Map.get`/`Map.set`/`Map.delete` as `jsMapGet`/`jsMapSet`/
`jsMapDelete`.  `Map.set` of an existing key updates the value in place
(keeping the key's position); `Map.delete` removes the binding. -/

/-- `Map.prototype.get`: first binding of `k`, if any. -/
def jsMapGet {K β : Type} [DecidableEq K] (m : List (K × β)) (k : K) : Option β :=
  match m with
  | [] => none
  | (k', v) :: rest => if k' = k then some v else jsMapGet rest k

/-- `Map.prototype.has`. -/
def jsMapHas {K β : Type} [DecidableEq K] (m : List (K × β)) (k : K) : Bool :=
  (jsMapGet m k).isSome

/-- `Map.prototype.set`: update in place if present, else append at the end. -/
def jsMapSet {K β : Type} [DecidableEq K] (m : List (K × β)) (k : K) (v : β) :
    List (K × β) :=
  match m with
  | [] => [(k, v)]
  | (k', v') :: rest => if k' = k then (k, v) :: rest else (k', v') :: jsMapSet rest k v

/-- `Map.prototype.delete`: remove the binding of `k` (keys of a `Map` are
unique, so filtering every occurrence agrees with deleting the one binding). -/
def jsMapDelete {K β : Type} [DecidableEq K] (m : List (K × β)) (k : K) :
    List (K × β) :=
  m.filter (fun e => e.1 ≠ k)

/-- An entry stored in the LRU cache: `{ value, timestamp: Date.now() }`. -/
structure CacheEntry (V : Type) where
  value : V
  timestamp : Int
deriving DecidableEq, Repr

/-- The `LRUCache` class state: `maxSize`, `ttl`, and the backing `Map`. -/
structure LRUCache (K V : Type) where
  maxSize : Nat
  ttl : Int
  entries : List (K × CacheEntry V)
deriving DecidableEq, Repr

namespace LRUCache

/-- `LRUCache.prototype.get(key)` at time `now`: `null` on miss; on an expired
entry delete it and return `null`; otherwise move the entry to the
most-recently-used end and return its value. -/
def get {K V : Type} [DecidableEq K] (c : LRUCache K V) (key : K) (now : Int) :
    Option V × LRUCache K V :=
  match jsMapGet c.entries key with
  | none => (none, c)
  | some entry =>
    if c.ttl < now - entry.timestamp then
      (none, { c with entries := jsMapDelete c.entries key })
    else
      (some entry.value,
       { c with entries := jsMapSet (jsMapDelete c.entries key) key entry })

/-- `const firstKey = this.cache.keys().next().value; this.cache.delete(firstKey)`:
delete the first (oldest) key.  When the map is empty, `firstKey` is
`undefined` and `Map.delete(undefined)` is a no-op. -/
def evictOldest {K V : Type} [DecidableEq K] (m : List (K × CacheEntry V)) :
    List (K × CacheEntry V) :=
  match m with
  | [] => m
  | (k0, _) :: _ => jsMapDelete m k0

/-- `LRUCache.prototype.set(key, value)` at time `now`: delete the key if
present, evict the oldest key when at capacity, then insert at the end with
timestamp `now`. -/
def set {K V : Type} [DecidableEq K] (c : LRUCache K V) (key : K) (value : V)
    (now : Int) : LRUCache K V :=
  let e1 := if jsMapHas c.entries key then jsMapDelete c.entries key else c.entries
  let e2 := if c.maxSize ≤ e1.length then evictOldest e1 else e1
  { c with entries := jsMapSet e2 key ⟨value, now⟩ }

/-- `LRUCache.prototype.clear()`. -/
def clear {K V : Type} (c : LRUCache K V) : LRUCache K V :=
  { c with entries := [] }

/-- `LRUCache.prototype.size()`. -/
def size {K V : Type} (c : LRUCache K V) : Nat := c.entries.length

end LRUCache

/-- One externally observable cache operation, with its `Date.now()` instant. -/
inductive CacheOp (K V : Type) where
  | get (key : K) (now : Int)
  | set (key : K) (value : V) (now : Int)
  | clear
deriving DecidableEq

/-- Apply one operation to the cache state. -/
def runCacheOp {K V : Type} [DecidableEq K] (c : LRUCache K V) :
    CacheOp K V → LRUCache K V
  | .get k now => (c.get k now).2
  | .set k v now => c.set k v now
  | .clear => c.clear

/-- Apply a sequence of operations, oldest first. -/
def runCacheOps {K V : Type} [DecidableEq K] (c : LRUCache K V)
    (ops : List (CacheOp K V)) : LRUCache K V :=
  ops.foldl runCacheOp c

/-! ### Association-list (`Map`) lemmas -/

theorem jsMapGet_set_self {K β : Type} [DecidableEq K] (m : List (K × β)) (k : K)
    (v : β) : jsMapGet (jsMapSet m k v) k = some v := by
  induction m with
  | nil => simp [jsMapSet, jsMapGet]
  | cons e rest ih =>
    by_cases h : e.1 = k
    · simp [jsMapSet, jsMapGet, h]
    · simpa [jsMapSet, jsMapGet, h] using ih

theorem jsMapGet_set_ne {K β : Type} [DecidableEq K] (m : List (K × β)) (k k' : K)
    (v : β) (h : k' ≠ k) : jsMapGet (jsMapSet m k v) k' = jsMapGet m k' := by
  have hk : ¬ (k = k') := fun hh => h hh.symm
  induction m with
  | nil =>
    simp only [jsMapSet, jsMapGet]
    rw [if_neg hk]
  | cons e rest ih =>
    obtain ⟨a, b⟩ := e
    simp only [jsMapSet]
    by_cases ha : a = k
    · subst ha
      rw [if_pos rfl]
      simp only [jsMapGet]
      rw [if_neg hk, if_neg hk]
    · rw [if_neg ha]
      simp only [jsMapGet]
      by_cases ha' : a = k'
      · rw [if_pos ha', if_pos ha']
      · rw [if_neg ha', if_neg ha', ih]

theorem jsMapGet_delete_self {K β : Type} [DecidableEq K] (m : List (K × β))
    (k : K) : jsMapGet (jsMapDelete m k) k = none := by
  induction m with
  | nil => simp [jsMapDelete, jsMapGet]
  | cons e rest ih =>
    obtain ⟨a, b⟩ := e
    by_cases ha : a = k
    · subst ha
      simpa [jsMapDelete, List.filter_cons] using ih
    · simpa [jsMapDelete, List.filter_cons, jsMapGet, ha] using ih

theorem jsMapGet_delete_ne {K β : Type} [DecidableEq K] (m : List (K × β))
    (k k' : K) (h : k' ≠ k) : jsMapGet (jsMapDelete m k) k' = jsMapGet m k' := by
  induction m with
  | nil => simp [jsMapDelete, jsMapGet]
  | cons e rest ih =>
    obtain ⟨a, b⟩ := e
    simp only [jsMapDelete, ne_eq, decide_not] at ih
    by_cases ha : a = k
    · subst ha
      have hk' : ¬ (a = k') := fun hh => h (hh ▸ rfl)
      simp [jsMapDelete, List.filter_cons, jsMapGet, hk', h, ih]
    · by_cases ha' : a = k' <;>
        simp [jsMapDelete, List.filter_cons, jsMapGet, ha, ha', h, ih]

theorem jsMapGet_delete_some {K β : Type} [DecidableEq K] {m : List (K × β)}
    {k0 k : K} {e : β} (h : jsMapGet (jsMapDelete m k0) k = some e) :
    jsMapGet m k = some e := by
  by_cases hk : k0 = k
  · subst hk; rw [jsMapGet_delete_self] at h; exact absurd h (by simp)
  · rwa [jsMapGet_delete_ne m k0 k (fun h' => hk h'.symm)] at h

theorem jsMapDelete_length_le {K β : Type} [DecidableEq K] (m : List (K × β))
    (k : K) : (jsMapDelete m k).length ≤ m.length :=
  List.length_filter_le _ m

theorem jsMapDelete_length_lt {K β : Type} [DecidableEq K] (m : List (K × β))
    (k : K) (h : jsMapHas m k = true) :
    (jsMapDelete m k).length < m.length := by
  apply List.length_filter_lt_length_iff_exists.mpr
  induction m with
  | nil => simp [jsMapHas, jsMapGet] at h
  | cons e rest ih =>
    by_cases he : e.1 = k
    · exact ⟨e, List.mem_cons_self _ _, by simp [he]⟩
    · simp only [jsMapHas, jsMapGet, he, if_false] at h
      obtain ⟨x, hx, hpx⟩ := ih h
      exact ⟨x, List.mem_cons_of_mem _ hx, hpx⟩

theorem jsMapSet_length_le {K β : Type} [DecidableEq K] (m : List (K × β))
    (k : K) (v : β) : (jsMapSet m k v).length ≤ m.length + 1 := by
  induction m with
  | nil => simp [jsMapSet]
  | cons e rest ih =>
    by_cases he : e.1 = k
    · simp [jsMapSet, he]
    · simp only [jsMapSet, he, if_false, List.length_cons]
      omega

theorem jsMapSet_length_absent {K β : Type} [DecidableEq K] (m : List (K × β))
    (k : K) (v : β) (h : jsMapGet m k = none) :
    (jsMapSet m k v).length = m.length + 1 := by
  induction m with
  | nil => simp [jsMapSet]
  | cons e rest ih =>
    by_cases he : e.1 = k
    · simp [jsMapGet, he] at h
    · simp only [jsMapGet, he, if_false] at h
      simp [jsMapSet, he, ih h]

theorem jsMapDelete_length_nodup {K β : Type} [DecidableEq K] (m : List (K × β))
    (k : K) (hn : (m.map Prod.fst).Nodup) (h : jsMapHas m k = true) :
    (jsMapDelete m k).length + 1 = m.length := by
  induction m with
  | nil => simp [jsMapHas, jsMapGet] at h
  | cons e rest ih =>
    obtain ⟨a, b⟩ := e
    simp only [List.map_cons, List.nodup_cons] at hn
    by_cases ha : a = k
    · subst ha
      have hrest : jsMapDelete rest a = rest := by
        apply List.filter_eq_self.mpr
        intro x hx
        simp only [ne_eq, decide_eq_true_eq, decide_not, Bool.not_eq_true',
          decide_eq_false_iff_not]
        intro hx1
        exact hn.1 (hx1 ▸ List.mem_map_of_mem Prod.fst hx)
      simp only [jsMapDelete] at hrest ⊢
      simp only [List.filter_cons, ne_eq, not_true_eq_false, decide_False,
        Bool.false_eq_true, if_false, hrest, List.length_cons]
    · simp only [jsMapHas, jsMapGet, ha, if_false] at h
      have hih := ih hn.2 (by simpa [jsMapHas] using h)
      simp only [jsMapDelete, ne_eq] at hih ⊢
      simp only [List.filter_cons, ne_eq, ha, not_false_eq_true, decide_True,
        if_true, List.length_cons]
      omega

/-! ### Cache invariants -/

theorem LRUCache.maxSize_runCacheOp {K V : Type} [DecidableEq K]
    (c : LRUCache K V) (op : CacheOp K V) :
    (runCacheOp c op).maxSize = c.maxSize := by
  cases op with
  | get k now =>
    simp only [runCacheOp, LRUCache.get]
    cases jsMapGet c.entries k with
    | none => rfl
    | some e => by_cases h : c.ttl < now - e.timestamp <;> simp [h]
  | set k v now => rfl
  | clear => rfl

theorem LRUCache.ttl_runCacheOp {K V : Type} [DecidableEq K]
    (c : LRUCache K V) (op : CacheOp K V) :
    (runCacheOp c op).ttl = c.ttl := by
  cases op with
  | get k now =>
    simp only [runCacheOp, LRUCache.get]
    cases jsMapGet c.entries k with
    | none => rfl
    | some e => by_cases h : c.ttl < now - e.timestamp <;> simp [h]
  | set k v now => rfl
  | clear => rfl

theorem LRUCache.evictOldest_length_lt {K V : Type} [DecidableEq K]
    (m : List (K × CacheEntry V)) (h : m ≠ []) :
    (LRUCache.evictOldest m).length < m.length := by
  cases m with
  | nil => exact absurd rfl h
  | cons p rest =>
    obtain ⟨k0, v0⟩ := p
    exact jsMapDelete_length_lt _ _ (by simp [jsMapHas, jsMapGet])

theorem LRUCache.size_set_le {K V : Type} [DecidableEq K] (c : LRUCache K V)
    (k : K) (v : V) (now : Int) (h1 : 1 ≤ c.maxSize) (h2 : c.size ≤ c.maxSize) :
    (c.set k v now).size ≤ c.maxSize := by
  have key : ∀ e1 : List (K × CacheEntry V), e1.length ≤ c.maxSize →
      (jsMapSet (if c.maxSize ≤ e1.length then LRUCache.evictOldest e1 else e1) k
        (⟨v, now⟩ : CacheEntry V)).length ≤ c.maxSize := by
    intro e1 hlen
    by_cases hcap : c.maxSize ≤ e1.length
    · simp only [hcap, if_true]
      have hne : e1 ≠ [] := by
        intro hnil
        rw [hnil] at hcap
        simp only [List.length_nil, Nat.le_zero] at hcap
        omega
      have hev := LRUCache.evictOldest_length_lt e1 hne
      have hset := jsMapSet_length_le (LRUCache.evictOldest e1) k
        (⟨v, now⟩ : CacheEntry V)
      omega
    · simp only [hcap, if_false]
      have hset := jsMapSet_length_le e1 k (⟨v, now⟩ : CacheEntry V)
      omega
  have he1len :
      (if jsMapHas c.entries k then jsMapDelete c.entries k else c.entries).length ≤
        c.entries.length := by
    split
    · exact jsMapDelete_length_le _ _
    · exact le_refl _
  exact key _ (le_trans he1len h2)

theorem LRUCache.size_get_le {K V : Type} [DecidableEq K] (c : LRUCache K V)
    (k : K) (now : Int) : (c.get k now).2.size ≤ c.size := by
  unfold LRUCache.get
  cases hg : jsMapGet c.entries k with
  | none => simp [LRUCache.size]
  | some entry =>
    by_cases h : c.ttl < now - entry.timestamp
    · simpa [h, LRUCache.size] using jsMapDelete_length_le c.entries k
    · have hlt := jsMapDelete_length_lt c.entries k (by simp [jsMapHas, hg])
      have hle := jsMapSet_length_le (jsMapDelete c.entries k) k entry
      simp only [h, if_false, LRUCache.size]
      omega

theorem LRUCache.get_preserves_entry {K V : Type} [DecidableEq K]
    (c : LRUCache K V) (k k' : K) (now : Int) (x : CacheEntry V)
    (H : ∀ e, jsMapGet c.entries k = some e → e = x) :
    ∀ e, jsMapGet ((c.get k' now).2).entries k = some e → e = x := by
  intro e he
  unfold LRUCache.get at he
  cases hg : jsMapGet c.entries k' with
  | none =>
    rw [hg] at he
    exact H e he
  | some entry =>
    rw [hg] at he
    by_cases hexp : c.ttl < now - entry.timestamp
    · simp only [hexp, if_true] at he
      exact H e (jsMapGet_delete_some he)
    · simp only [hexp, if_false] at he
      by_cases hk : k' = k
      · subst hk
        rw [jsMapGet_set_self] at he
        have hee : entry = e := Option.some.inj he
        subst hee
        exact H entry hg
      · rw [jsMapGet_set_ne _ _ _ _ (fun hh => hk hh.symm)] at he
        exact H e (jsMapGet_delete_some he)

theorem jsMapGet_evictOldest_some {K V : Type} [DecidableEq K]
    {m : List (K × CacheEntry V)} {k : K} {e : CacheEntry V}
    (h : jsMapGet (LRUCache.evictOldest m) k = some e) :
    jsMapGet m k = some e := by
  cases m with
  | nil => exact h
  | cons p rest =>
    obtain ⟨k0, v0⟩ := p
    exact jsMapGet_delete_some h

theorem LRUCache.set_other_preserves_entry {K V : Type} [DecidableEq K]
    (c : LRUCache K V) (k k' : K) (v' : V) (now : Int) (x : CacheEntry V)
    (hk : k' ≠ k)
    (H : ∀ e, jsMapGet c.entries k = some e → e = x) :
    ∀ e, jsMapGet ((c.set k' v' now)).entries k = some e → e = x := by
  intro e he
  unfold LRUCache.set at he
  simp only at he
  rw [jsMapGet_set_ne _ _ _ _ (fun hh => hk hh.symm)] at he
  set e1 := if jsMapHas c.entries k' = true then jsMapDelete c.entries k' else c.entries
    with he1def
  have he1 : ∀ e2, jsMapGet e1 k = some e2 → jsMapGet c.entries k = some e2 := by
    intro e2 h2
    rw [he1def] at h2
    by_cases hhas : jsMapHas c.entries k' = true
    · rw [if_pos hhas] at h2
      exact jsMapGet_delete_some h2
    · rw [if_neg hhas] at h2
      exact h2
  by_cases hcap : c.maxSize ≤ e1.length
  · rw [if_pos hcap] at he
    exact H e (he1 e (jsMapGet_evictOldest_some he))
  · rw [if_neg hcap] at he
    exact H e (he1 e he)

/-- Whether an operation is allowed while tracking key `k`: anything except a
write to `k` or a wholesale clear (TTL expiry and capacity eviction remain
possible and are accounted for in the statement). -/
def CacheOp.avoids {K V : Type} [DecidableEq K] (op : CacheOp K V) (k : K) : Bool :=
  match op with
  | .get _ _ => true
  | .set k' _ _ => k' ≠ k
  | .clear => false

theorem runCacheOps_maxSize {K V : Type} [DecidableEq K] (c : LRUCache K V)
    (ops : List (CacheOp K V)) : (runCacheOps c ops).maxSize = c.maxSize := by
  induction ops generalizing c with
  | nil => rfl
  | cons op rest ih =>
    simp only [runCacheOps, List.foldl_cons] at ih ⊢
    rw [ih, LRUCache.maxSize_runCacheOp]

theorem runCacheOp_size_le {K V : Type} [DecidableEq K] (c : LRUCache K V)
    (op : CacheOp K V) (h1 : 1 ≤ c.maxSize) (h2 : c.size ≤ c.maxSize) :
    (runCacheOp c op).size ≤ c.maxSize := by
  cases op with
  | get k now => exact le_trans (LRUCache.size_get_le c k now) h2
  | set k v now => exact LRUCache.size_set_le c k v now h1 h2
  | clear => exact le_trans (Nat.zero_le _) h1

theorem runCacheOps_entry_persists {K V : Type} [DecidableEq K] (k : K)
    (x : CacheEntry V) (ops : List (CacheOp K V)) (c1 : LRUCache K V)
    (hav : ∀ op ∈ ops, op.avoids k = true)
    (H : ∀ e, jsMapGet c1.entries k = some e → e = x) :
    ∀ e, jsMapGet (runCacheOps c1 ops).entries k = some e → e = x := by
  induction ops generalizing c1 with
  | nil => exact H
  | cons op rest ih =>
    simp only [runCacheOps, List.foldl_cons]
    have hop : op.avoids k = true := hav op (List.mem_cons_self _ _)
    have hrest : ∀ op ∈ rest, op.avoids k = true :=
      fun o ho => hav o (List.mem_cons_of_mem _ ho)
    apply ih _ hrest
    cases op with
    | get k' now => exact LRUCache.get_preserves_entry c1 k k' now x H
    | set k' v' now =>
      have hk : k' ≠ k := by simpa [CacheOp.avoids] using hop
      exact LRUCache.set_other_preserves_entry c1 k k' v' now x hk H
    | clear => simp [CacheOp.avoids] at hop

/-- **C8** (amended: `maxSize ≥ 1`).  (a) Starting from any within-capacity
state of a cache with positive capacity, any sequence of operations leaves at
most `maxSize` entries.  (b) `set(k, v)` installs the entry `(v, now)` for `k`.
(c) After any further operations that do not write `k` and do not clear the
cache, the entry for `k` — if TTL expiry or capacity eviction has not removed
it — is still exactly `(v, now)`.  (d) `get(k)` on a cache whose entry for `k`
is `(v, t)` returns `v` whenever `now - t ≤ ttl`. -/
theorem lru_cache_correctness :
    (∀ (K V : Type) [DecidableEq K] (c0 : LRUCache K V) (ops : List (CacheOp K V)),
      1 ≤ c0.maxSize → c0.size ≤ c0.maxSize →
      (runCacheOps c0 ops).size ≤ (runCacheOps c0 ops).maxSize)
    ∧ (∀ (K V : Type) [DecidableEq K] (c : LRUCache K V) (k : K) (v : V) (t : Int),
      jsMapGet ((c.set k v t)).entries k = some ⟨v, t⟩)
    ∧ (∀ (K V : Type) [DecidableEq K] (c : LRUCache K V) (k : K) (v : V) (t : Int)
        (ops : List (CacheOp K V)), (∀ op ∈ ops, op.avoids k = true) →
      ∀ e, jsMapGet (runCacheOps (c.set k v t) ops).entries k = some e → e = ⟨v, t⟩)
    ∧ (∀ (K V : Type) [DecidableEq K] (c : LRUCache K V) (k : K) (v : V) (t now : Int),
      jsMapGet c.entries k = some ⟨v, t⟩ → now - t ≤ c.ttl →
      (c.get k now).1 = some v) := by
  refine ⟨?_, ?_, ?_, ?_⟩
  · intro K V _ c0 ops h1 h2
    rw [runCacheOps_maxSize]
    induction ops generalizing c0 with
    | nil => exact h2
    | cons op rest ih =>
      simp only [runCacheOps, List.foldl_cons] at ih ⊢
      have hstep := runCacheOp_size_le c0 op h1 h2
      have hms := LRUCache.maxSize_runCacheOp c0 op
      exact le_trans (by rw [← hms] at hstep ⊢; exact ih _ (by omega) hstep) (le_refl _)
  · intro K V _ c k v t
    simp only [LRUCache.set]
    exact jsMapGet_set_self _ _ _
  · intro K V _ c k v t ops hav
    apply runCacheOps_entry_persists k ⟨v, t⟩ ops _ hav
    intro e he
    simp only [LRUCache.set] at he
    rw [jsMapGet_set_self] at he
    exact (Option.some.inj he).symm
  · intro K V _ c k v t now hg hfresh
    unfold LRUCache.get
    rw [hg]
    have : ¬ (c.ttl < now - t) := not_lt.mpr hfresh
    simp [this]

/-- Witness for C8 at concrete inputs. -/
theorem lru_cache_correctness_witness :
    ((runCacheOps (⟨2, 100, []⟩ : LRUCache Nat Nat)
        [.set 1 10 0, .set 2 20 1, .set 3 30 2]).size ≤
      (runCacheOps (⟨2, 100, []⟩ : LRUCache Nat Nat)
        [.set 1 10 0, .set 2 20 1, .set 3 30 2]).maxSize)
    ∧ (∀ e, jsMapGet (runCacheOps ((⟨2, 100, []⟩ : LRUCache Nat Nat).set 1 10 0)
        [.get 1 5, .set 2 20 6]).entries 1 = some e → e = ⟨10, 0⟩)
    ∧ (((⟨2, 100, [(1, ⟨10, 0⟩)]⟩ : LRUCache Nat Nat)).get 1 50).1 = some 10 :=
  ⟨lru_cache_correctness.1 Nat Nat _ _ (by decide) (by decide),
   lru_cache_correctness.2.2.1 Nat Nat _ 1 10 0 _ (by decide),
   lru_cache_correctness.2.2.2 Nat Nat _ 1 10 0 50 (by decide) (by decide)⟩

/-- **C8 counterexample**: as literally stated ("for every LRUCache … the
cache holds at most `maxSize` entries"), the claim fails for a cache
constructed with `maxSize = 0`: `set` evicts from the empty map (a no-op,
`firstKey` is `undefined`) and then inserts, leaving 1 > 0 entries. -/
theorem lru_cache_maxsize_zero_counterexample :
    ((⟨0, 3600000, []⟩ : LRUCache Nat Nat).set 1 7 0).maxSize <
      ((⟨0, 3600000, []⟩ : LRUCache Nat Nat).set 1 7 0).size := by decide

/-- **C10**: `set` on a key already present while the cache is full replaces
just that entry: the size stays `maxSize`, the key maps to the new value, and
every other key's binding is untouched. -/
theorem lru_set_existing_key_at_capacity_frame :
    ∀ (K V : Type) [DecidableEq K] (c : LRUCache K V) (k : K) (v : V) (t : Int),
      (c.entries.map Prod.fst).Nodup →
      jsMapHas c.entries k = true →
      c.size = c.maxSize →
      (c.set k v t).size = c.maxSize
      ∧ jsMapGet (c.set k v t).entries k = some ⟨v, t⟩
      ∧ ∀ k', k' ≠ k → jsMapGet (c.set k v t).entries k' = jsMapGet c.entries k' := by
  intro K V _ c k v t hn hhas hfull
  have hdel := jsMapDelete_length_nodup c.entries k hn hhas
  have hne : 1 ≤ c.entries.length := by
    cases hc : c.entries with
    | nil => rw [hc] at hhas; simp [jsMapHas, jsMapGet] at hhas
    | cons p rest => simp
  simp only [LRUCache.size] at hfull
  have hcap : ¬ (c.maxSize ≤ (jsMapDelete c.entries k).length) := by omega
  have hset : (c.set k v t).entries = jsMapSet (jsMapDelete c.entries k) k ⟨v, t⟩ := by
    simp only [LRUCache.set, hhas, if_true, hcap, if_false]
  refine ⟨?_, ?_, ?_⟩
  · show (c.set k v t).entries.length = c.maxSize
    rw [hset, jsMapSet_length_absent _ _ _ (jsMapGet_delete_self _ _)]
    omega
  · rw [hset]
    exact jsMapGet_set_self _ _ _
  · intro k' hk'
    rw [hset, jsMapGet_set_ne _ _ _ _ hk', jsMapGet_delete_ne _ _ _ hk']

/-- Witness for C10 at concrete inputs. -/
theorem lru_set_existing_key_at_capacity_frame_witness :
    ((⟨2, 100, [(1, ⟨10, 0⟩), (2, ⟨20, 1⟩)]⟩ : LRUCache Nat Nat).set 1 99 5).size = 2
    ∧ jsMapGet ((⟨2, 100, [(1, ⟨10, 0⟩), (2, ⟨20, 1⟩)]⟩ :
        LRUCache Nat Nat).set 1 99 5).entries 1 = some ⟨99, 5⟩
    ∧ ∀ k', k' ≠ 1 →
        jsMapGet ((⟨2, 100, [(1, ⟨10, 0⟩), (2, ⟨20, 1⟩)]⟩ :
          LRUCache Nat Nat).set 1 99 5).entries k' =
        jsMapGet [(1, (⟨10, 0⟩ : CacheEntry Nat)), (2, ⟨20, 1⟩)] k' :=
  lru_set_existing_key_at_capacity_frame Nat Nat
    ⟨2, 100, [(1, ⟨10, 0⟩), (2, ⟨20, 1⟩)]⟩ 1 99 5 (by decide) (by decide) (by decide)

/-! ## `lib/utils/constants.js` — the constants the matching subsystem uses -/

/-- `MATCH_TYPES` (`NONE: null` stands for any value outside the enum; the
confidence calculator's `default` switch arm handles it). -/
inductive MatchType where
  | exact
  | keyword
  | fuzzy
  | partialT
  | ai
  | none
deriving DecidableEq, Repr

/-- `QUESTION_TYPES`. -/
inductive QuestionType where
  | mcq
  | true_false
  | fill_blank
  | short_answer
  | essay
  | unknown
deriving DecidableEq, Repr

namespace CONFIDENCE_THRESHOLDS

def EXACT : ℚ := (1 : ℚ)
def HIGH : ℚ := (17 : ℚ)/20
def MEDIUM : ℚ := (3 : ℚ)/5
def LOW : ℚ := (3 : ℚ)/10
def REJECT : ℚ := (0 : ℚ)

end CONFIDENCE_THRESHOLDS

namespace MATCHING_CONFIG

def KEYWORD_MIN_OVERLAP : ℚ := (3 : ℚ)/4
def KEYWORD_MIN_CONFIDENCE : ℚ := (3 : ℚ)/4
def KEYWORD_MAX_CONFIDENCE : ℚ := (19 : ℚ)/20
def FUZZY_MIN_SIMILARITY : ℚ := (17 : ℚ)/20
def FUZZY_MIN_CONFIDENCE : ℚ := (3 : ℚ)/5
def FUZZY_MAX_CONFIDENCE : ℚ := (4 : ℚ)/5
def FUZZY_MAX_CANDIDATES : Nat := 50
def PARTIAL_MIN_SCORE : ℚ := (1 : ℚ)/2
def PARTIAL_MIN_CONFIDENCE : ℚ := (3 : ℚ)/10
def PARTIAL_MAX_CONFIDENCE : ℚ := (3 : ℚ)/5
def MAX_QUERY_LENGTH : Nat := 500
def MIN_QUERY_LENGTH : Nat := 3

end MATCHING_CONFIG

namespace KEYWORD_CONFIG

def MAX_KEYWORDS : Nat := 50
def MIN_KEYWORD_LENGTH : Nat := 3
def MAX_KEYWORD_LENGTH : Nat := 50
def IMPORTANCE_THRESHOLD : ℚ := (1 : ℚ)/10

end KEYWORD_CONFIG

/-! ## `lib/matching/confidence-calculator.js` -/

/-- The `context` argument of `calculateConfidence`.  The source also
destructures a `questionType` field (default `'unknown'`) but never uses it,
so it is omitted here.  Lengths default to `0` at the call boundary. -/
structure ConfContext where
  queryLength : ℚ
  questionLength : ℚ
deriving DecidableEq, Repr

/-- `scaleScore(score, min, max) = min + score * (max - min)`. -/
def scaleScore (score minV maxV : ℚ) : ℚ :=
  minV + score * (maxV - minV)

/-- `calculateConfidence(matchType, rawScore, context)`. -/
def calculateConfidence (matchType : MatchType) (rawScore : ℚ)
    (ctx : ConfContext) : ℚ :=
  let confidence : ℚ :=
    match matchType with
    | .exact => CONFIDENCE_THRESHOLDS.EXACT
    | .keyword =>
      let c := scaleScore rawScore MATCHING_CONFIG.KEYWORD_MIN_CONFIDENCE
        MATCHING_CONFIG.KEYWORD_MAX_CONFIDENCE
      if 50 < ctx.queryLength then min (c * (11 : ℚ)/10) (1 : ℚ) else c
    | .fuzzy =>
      let c := scaleScore rawScore MATCHING_CONFIG.FUZZY_MIN_CONFIDENCE
        MATCHING_CONFIG.FUZZY_MAX_CONFIDENCE
      -- In the source `lengthRatio = min/max` is NaN when both lengths are 0,
      -- and `NaN < (7 : ℚ)/10` is false, so the penalty is skipped in that case.
      let denom := max ctx.queryLength ctx.questionLength
      if denom ≠ 0 ∧ min ctx.queryLength ctx.questionLength / denom < (7 : ℚ)/10 then
        c * (9 : ℚ)/10
      else c
    | .partialT =>
      let c := scaleScore rawScore MATCHING_CONFIG.PARTIAL_MIN_CONFIDENCE
        MATCHING_CONFIG.PARTIAL_MAX_CONFIDENCE
      c * (4 : ℚ)/5
    | .ai => rawScore
    | .none => 0
  max 0 (min 1 confidence)

/-- `getConfidenceLevel` result labels. -/
inductive ConfidenceLevel where
  | HIGH
  | MEDIUM
  | LOW
  | NONE
deriving DecidableEq, Repr

/-- `getConfidenceLevel(confidence)`. -/
def getConfidenceLevel (confidence : ℚ) : ConfidenceLevel :=
  if CONFIDENCE_THRESHOLDS.HIGH ≤ confidence then .HIGH
  else if CONFIDENCE_THRESHOLDS.MEDIUM ≤ confidence then .MEDIUM
  else if CONFIDENCE_THRESHOLDS.LOW ≤ confidence then .LOW
  else .NONE

/-- `Math.round`: round half toward positive infinity. -/
def jsRound (x : ℚ) : Int := ⌊x + 1/2⌋

/-- The per-match-type base explanation of `explainConfidence`, rendered
structurally instead of as text (`pct` is `Math.round(rawScore * 100)`). -/
inductive BaseExplanation where
  | exactMatchAfterNormalization
  | keywordOverlap (pct : Int)
  | textSimilarity (pct : Int)
  | partialTextMatch
  | aiGeneratedAnswer
  | unknownMatchType
deriving DecidableEq, Repr

/-- `explainConfidence` output, rendered structurally: the level prefix
(`✓`/`⚠`/`⚠ low`/`✗ No reliable match found`) together with the base text. -/
inductive Explanation where
  | high (base : BaseExplanation)
  | medium (base : BaseExplanation)
  | low (base : BaseExplanation)
  | noReliableMatch
deriving DecidableEq, Repr

/-- `explainConfidence(matchType, confidence, rawScore)`. -/
def explainConfidence (matchType : MatchType) (confidence rawScore : ℚ) :
    Explanation :=
  let base : BaseExplanation :=
    match matchType with
    | .exact => .exactMatchAfterNormalization
    | .keyword => .keywordOverlap (jsRound (rawScore * 100))
    | .fuzzy => .textSimilarity (jsRound (rawScore * 100))
    | .partialT => .partialTextMatch
    | .ai => .aiGeneratedAnswer
    | .none => .unknownMatchType
  match getConfidenceLevel confidence with
  | .HIGH => .high base
  | .MEDIUM => .medium base
  | .LOW => .low base
  | .NONE => .noReliableMatch

/-- **C2**: for a fixed matchType and context, `calculateConfidence` is
monotone non-decreasing in `rawScore`; `exact` always yields the maximum
confidence constant; and the result is always clamped to `[0, 1]`. -/
theorem confidence_monotone_exact_clamped :
    (∀ (mt : MatchType) (ctx : ConfContext) (r1 r2 : ℚ), r1 < r2 →
      calculateConfidence mt r1 ctx ≤ calculateConfidence mt r2 ctx)
    ∧ (∀ (r : ℚ) (ctx : ConfContext),
      calculateConfidence .exact r ctx = CONFIDENCE_THRESHOLDS.EXACT)
    ∧ (∀ (mt : MatchType) (r : ℚ) (ctx : ConfContext),
      0 ≤ calculateConfidence mt r ctx ∧ calculateConfidence mt r ctx ≤ 1) := by
  refine ⟨?_, ?_, ?_⟩
  · intro mt ctx r1 r2 h
    have hle : r1 ≤ r2 := le_of_lt h
    apply max_le_max (le_refl (0 : ℚ))
    apply min_le_min (le_refl (1 : ℚ))
    cases mt with
    | exact => exact le_refl _
    | keyword =>
      dsimp only
      simp only [scaleScore, MATCHING_CONFIG.KEYWORD_MIN_CONFIDENCE,
        MATCHING_CONFIG.KEYWORD_MAX_CONFIDENCE]
      split
      · apply min_le_min _ (le_refl _)
        nlinarith
      · nlinarith
    | fuzzy =>
      dsimp only
      simp only [scaleScore, MATCHING_CONFIG.FUZZY_MIN_CONFIDENCE,
        MATCHING_CONFIG.FUZZY_MAX_CONFIDENCE]
      split
      · nlinarith
      · nlinarith
    | partialT =>
      dsimp only
      simp only [scaleScore, MATCHING_CONFIG.PARTIAL_MIN_CONFIDENCE,
        MATCHING_CONFIG.PARTIAL_MAX_CONFIDENCE]
      nlinarith
    | ai => exact hle
    | none => exact le_refl _
  · intro r ctx
    simp only [calculateConfidence, CONFIDENCE_THRESHOLDS.EXACT]
    norm_num
  · intro mt r ctx
    constructor
    · exact le_max_left _ _
    · exact max_le (by norm_num) (min_le_left _ _)

/-- Witness for C2 at concrete inputs. -/
theorem confidence_monotone_exact_clamped_witness :
    calculateConfidence .keyword ((1 : ℚ)/2) ⟨10, 12⟩ ≤
      calculateConfidence .keyword ((3 : ℚ)/4) ⟨10, 12⟩
    ∧ calculateConfidence .exact ((1 : ℚ)/5) ⟨3, 9⟩ = CONFIDENCE_THRESHOLDS.EXACT
    ∧ (0 ≤ calculateConfidence .partialT ((3 : ℚ)/5) ⟨4, 4⟩
       ∧ calculateConfidence .partialT ((3 : ℚ)/5) ⟨4, 4⟩ ≤ 1) :=
  ⟨confidence_monotone_exact_clamped.1 .keyword ⟨10, 12⟩ ((1 : ℚ)/2) ((3 : ℚ)/4)
     (by norm_num),
   confidence_monotone_exact_clamped.2.1 ((1 : ℚ)/5) ⟨3, 9⟩,
   confidence_monotone_exact_clamped.2.2 .partialT ((3 : ℚ)/5) ⟨4, 4⟩⟩

/-! ## `lib/utils/string-utils.js` — set similarity, and
`lib/matching/keyword-matcher.js` — tier 2 -/

/-- Helper for `jsSetDedup`: drop elements already `seen`. -/
def jsSetDedupAux {α : Type} [DecidableEq α] (seen : List α) : List α → List α
  | [] => []
  | x :: xs =>
    if x ∈ seen then jsSetDedupAux seen xs
    else x :: jsSetDedupAux (x :: seen) xs

/-- `new Set(array)`: first-occurrence deduplication, preserving insertion
order. -/
def jsSetDedup {α : Type} [DecidableEq α] (l : List α) : List α :=
  jsSetDedupAux [] l

theorem mem_jsSetDedupAux {α : Type} [DecidableEq α] (l : List α) (seen : List α)
    (a : α) : a ∈ jsSetDedupAux seen l ↔ a ∈ l ∧ a ∉ seen := by
  induction l generalizing seen with
  | nil => simp [jsSetDedupAux]
  | cons x xs ih =>
    simp only [jsSetDedupAux]
    by_cases hx : x ∈ seen
    · rw [if_pos hx, ih]
      constructor
      · rintro ⟨h1, h2⟩
        exact ⟨List.mem_cons_of_mem _ h1, h2⟩
      · rintro ⟨h1, h2⟩
        rcases List.mem_cons.mp h1 with rfl | h1
        · exact absurd hx h2
        · exact ⟨h1, h2⟩
    · rw [if_neg hx]
      simp only [List.mem_cons, ih, List.mem_cons]
      constructor
      · rintro (rfl | ⟨h1, h2⟩)
        · exact ⟨Or.inl rfl, hx⟩
        · exact ⟨Or.inr h1, fun hs => h2 (Or.inr hs)⟩
      · rintro ⟨rfl | h1, h2⟩
        · exact Or.inl rfl
        · by_cases hax : a = x
          · exact Or.inl hax
          · exact Or.inr ⟨h1, fun hs => (by
              rcases hs with rfl | hs
              · exact hax rfl
              · exact h2 hs)⟩

theorem mem_jsSetDedup {α : Type} [DecidableEq α] (l : List α) (a : α) :
    a ∈ jsSetDedup l ↔ a ∈ l := by
  rw [jsSetDedup, mem_jsSetDedupAux]
  simp

theorem jsSetDedupAux_nodup {α : Type} [DecidableEq α] (l : List α)
    (seen : List α) : (jsSetDedupAux seen l).Nodup := by
  induction l generalizing seen with
  | nil => simp [jsSetDedupAux]
  | cons x xs ih =>
    simp only [jsSetDedupAux]
    by_cases hx : x ∈ seen
    · rw [if_pos hx]
      exact ih seen
    · rw [if_neg hx]
      refine List.nodup_cons.mpr ⟨?_, ih (x :: seen)⟩
      intro hmem
      rw [mem_jsSetDedupAux] at hmem
      exact hmem.2 (List.mem_cons_self _ _)

theorem jsSetDedup_nodup {α : Type} [DecidableEq α] (l : List α) :
    (jsSetDedup l).Nodup := jsSetDedupAux_nodup l []

/-- `jaccardSimilarity(set1, set2)` on already-deduplicated "sets":
`intersection = new Set([...set1].filter(x => set2.has(x)))`,
`union = new Set([...set1, ...set2])`, and `0` when the union is empty. -/
def jaccardSimilarity (set1 set2 : List JsStr) : ℚ :=
  if (jsSetDedup (set1 ++ set2)).length = 0 then (0 : ℚ)
  else ((jsSetDedup (set1.filter (fun x => decide (x ∈ set2)))).length : ℚ) /
    ((jsSetDedup (set1 ++ set2)).length : ℚ)

theorem nodup_length_le_of_subset {α : Type} [DecidableEq α] (l1 l2 : List α)
    (h1 : l1.Nodup) (h2 : l2.Nodup) (hsub : ∀ a ∈ l1, a ∈ l2) :
    l1.length ≤ l2.length := by
  rw [← List.toFinset_card_of_nodup h1, ← List.toFinset_card_of_nodup h2]
  apply Finset.card_le_card
  intro a ha
  rw [List.mem_toFinset] at ha ⊢
  exact hsub a ha

theorem jaccardSimilarity_nonneg (set1 set2 : List JsStr) :
    0 ≤ jaccardSimilarity set1 set2 := by
  unfold jaccardSimilarity
  split
  · norm_num
  · positivity

theorem jaccardSimilarity_le_one (set1 set2 : List JsStr) :
    jaccardSimilarity set1 set2 ≤ 1 := by
  unfold jaccardSimilarity
  split
  · norm_num
  · rename_i hne
    rw [div_le_one (by positivity)]
    have hlen : (jsSetDedup (set1.filter (fun x => decide (x ∈ set2)))).length ≤
        (jsSetDedup (set1 ++ set2)).length := by
      apply nodup_length_le_of_subset _ _ (jsSetDedup_nodup _) (jsSetDedup_nodup _)
      intro a ha
      rw [mem_jsSetDedup] at ha ⊢
      rw [List.mem_filter] at ha
      exact List.mem_append_left _ ha.1
    exact_mod_cast hlen

/-- `KEYWORD_TYPES`. -/
inductive KeywordType where
  | entity
  | technical
  | common
  | stopword
deriving DecidableEq, Repr

/-- A keyword `{ word, importance, type }`. -/
structure Keyword where
  word : JsStr
  importance : ℚ
  type : KeywordType
deriving DecidableEq, Repr

/-- The `processed` part of a stored question that the matchers read. -/
structure ProcessedQuestion where
  normalizedQuestion : JsStr
  keywords : List Keyword
deriving DecidableEq, Repr

/-- A stored question/answer record.  The matchers only read `processed`;
`id` stands in for the record's identity (original text, answer,
provenance, timestamps). -/
structure Document where
  id : Nat
  processed : ProcessedQuestion
deriving DecidableEq, Repr

/-- The `method` metadata strings of the four tier matchers. -/
inductive MatchMethod where
  | exact_normalized
  | keyword_jaccard
  | fuzzy_similarity
  | partial_substring
  | ai_generated
deriving DecidableEq, Repr

/-- Tier metadata attached to a match result. -/
structure MatchMetadata where
  tier : Nat
  method : MatchMethod
  candidatesEvaluated : Option Nat
  matchedKeywords : Option (List JsStr)
deriving DecidableEq, Repr

/-- A tier matcher's result object. -/
structure MatchResult where
  question : Document
  matchType : MatchType
  confidence : ℚ
  rawScore : ℚ
  explanation : Explanation
  metadata : MatchMetadata
deriving DecidableEq, Repr

/-- `new Map(listOfPairs)`: insert the pairs left to right. -/
def jsMapOfList {K β : Type} [DecidableEq K] (l : List (K × β)) : List (K × β) :=
  l.foldl (fun m kv => jsMapSet m kv.1 kv.2) []

/-- `calculateImportanceBoost(queryKeywords, candidateKeywords)`: the fraction
of the query's importance mass whose words the candidate also contains. -/
def calculateImportanceBoost (queryKeywords candidateKeywords : List Keyword) : ℚ :=
  let queryMap := jsMapOfList (queryKeywords.map (fun kw => (kw.word, kw.importance)))
  let candidateMap :=
    jsMapOfList (candidateKeywords.map (fun kw => (kw.word, kw.importance)))
  let totalImportance := (queryMap.map (fun e => e.2)).sum
  let matchedImportance :=
    ((queryMap.filter (fun e => jsMapHas candidateMap e.1)).map (fun e => e.2)).sum
  if 0 < totalImportance then matchedImportance / totalImportance else 0

/-- `getMatchedKeywords(queryKeywords, candidateKeywords)` (`Set.has` is list
membership). -/
def getMatchedKeywords (queryKeywords candidateKeywords : List JsStr) :
    List JsStr :=
  queryKeywords.filter (fun kw => decide (kw ∈ candidateKeywords))

/-- The loop body score of `keywordMatch`: Jaccard similarity of the two
keyword-string sets, weighted by `1 + importanceBoost * (1 : ℚ)/5`. -/
def keywordCandidateScore (queryKeywords : List Keyword) (candidate : Document) :
    ℚ :=
  let queryKeywordStrings := queryKeywords.map (fun kw => kw.word)
  let querySet := jsSetDedup queryKeywordStrings
  let candidateSet := jsSetDedup (candidate.processed.keywords.map (fun kw => kw.word))
  let similarity := jaccardSimilarity querySet candidateSet
  let importanceBoost :=
    calculateImportanceBoost queryKeywords candidate.processed.keywords
  similarity * (1 + importanceBoost * (1 : ℚ)/5)

/-- `keywordMatch(queryKeywords, dbManager)`; the database lookup
`dbManager.getQuestionsByKeywords` is passed in as a function. -/
def keywordMatch (queryKeywords : List Keyword)
    (getQuestionsByKeywords : List JsStr → List Document) : Option MatchResult :=
  if queryKeywords.isEmpty then none
  else
    let queryKeywordStrings := queryKeywords.map (fun kw => kw.word)
    let candidates := getQuestionsByKeywords queryKeywordStrings
    if candidates.isEmpty then none
    else
      let best := candidates.foldl
        (fun (acc : Option Document × ℚ) candidate =>
          let weightedScore := keywordCandidateScore queryKeywords candidate
          if acc.2 < weightedScore then (some candidate, weightedScore) else acc)
        (none, 0)
      if best.2 < MATCHING_CONFIG.KEYWORD_MIN_OVERLAP then none
      else
        match best.1 with
        | none => none
        | some bestMatch =>
          let confidence := calculateConfidence .keyword best.2
            ⟨(queryKeywordStrings.length : ℚ),
             (bestMatch.processed.keywords.length : ℚ)⟩
          some
            { question := bestMatch
              matchType := .keyword
              confidence := confidence
              rawScore := best.2
              explanation := explainConfidence .keyword confidence best.2
              metadata :=
                { tier := 2
                  method := .keyword_jaccard
                  candidatesEvaluated := some candidates.length
                  matchedKeywords := some (getMatchedKeywords queryKeywordStrings
                    (bestMatch.processed.keywords.map (fun kw => kw.word))) } }

theorem mem_jsMapSet {K β : Type} [DecidableEq K] (m : List (K × β)) (k : K)
    (v : β) (e : K × β) (h : e ∈ jsMapSet m k v) : e ∈ m ∨ e = (k, v) := by
  induction m with
  | nil => simpa [jsMapSet] using h
  | cons p rest ih =>
    obtain ⟨a, b⟩ := p
    simp only [jsMapSet] at h
    by_cases ha : a = k
    · rw [if_pos ha] at h
      rcases List.mem_cons.mp h with rfl | h
      · exact Or.inr rfl
      · exact Or.inl (List.mem_cons_of_mem _ h)
    · rw [if_neg ha] at h
      rcases List.mem_cons.mp h with rfl | h
      · exact Or.inl (List.mem_cons_self _ _)
      · rcases ih h with h | h
        · exact Or.inl (List.mem_cons_of_mem _ h)
        · exact Or.inr h

theorem mem_jsMapOfList {K β : Type} [DecidableEq K] (l : List (K × β))
    (e : K × β) (h : e ∈ jsMapOfList l) : e ∈ l := by
  suffices H : ∀ (l' : List (K × β)) (acc : List (K × β)),
      e ∈ l'.foldl (fun m kv => jsMapSet m kv.1 kv.2) acc → e ∈ acc ∨ e ∈ l' by
    rcases H l [] h with h' | h'
    · simp at h'
    · exact h'
  intro l'
  induction l' with
  | nil => exact fun acc hacc => Or.inl hacc
  | cons p rest ih =>
    intro acc hacc
    simp only [List.foldl_cons] at hacc
    rcases ih _ hacc with h' | h'
    · rcases mem_jsMapSet _ _ _ _ h' with h'' | h''
      · exact Or.inl h''
      · right
        rw [h'']
        exact List.mem_cons_self _ _
    · exact Or.inr (List.mem_cons_of_mem _ h')

theorem sum_map_filter_le {α : Type} (l : List α) (p : α → Bool) (f : α → ℚ)
    (h : ∀ x ∈ l, 0 ≤ f x) :
    ((l.filter p).map f).sum ≤ (l.map f).sum := by
  induction l with
  | nil => simp
  | cons x rest ih =>
    have hx := h x (List.mem_cons_self _ _)
    have hrest := ih (fun y hy => h y (List.mem_cons_of_mem _ hy))
    by_cases hp : p x
    · simp only [List.filter_cons, hp, if_true, List.map_cons, List.sum_cons]
      linarith
    · simp only [List.filter_cons, hp, if_false, List.map_cons, List.sum_cons,
        Bool.false_eq_true]
      linarith

theorem calculateImportanceBoost_bounds (queryKeywords candidateKeywords : List Keyword)
    (h : ∀ kw ∈ queryKeywords, 0 ≤ kw.importance) :
    0 ≤ calculateImportanceBoost queryKeywords candidateKeywords
    ∧ calculateImportanceBoost queryKeywords candidateKeywords ≤ 1 := by
  unfold calculateImportanceBoost
  dsimp only
  set queryMap :=
    jsMapOfList (queryKeywords.map (fun kw => (kw.word, kw.importance))) with hqm
  have hvals : ∀ e ∈ queryMap, 0 ≤ e.2 := by
    intro e he
    have := mem_jsMapOfList _ _ (hqm ▸ he)
    rw [List.mem_map] at this
    obtain ⟨kw, hkw, rfl⟩ := this
    exact h kw hkw
  have htot : 0 ≤ (queryMap.map (fun e => e.2)).sum := by
    apply List.sum_nonneg
    intro x hx
    rw [List.mem_map] at hx
    obtain ⟨e, he, rfl⟩ := hx
    exact hvals e he
  have hmatched : 0 ≤ ((queryMap.filter
      (fun e => jsMapHas (jsMapOfList (candidateKeywords.map
        (fun kw => (kw.word, kw.importance)))) e.1)).map (fun e => e.2)).sum := by
    apply List.sum_nonneg
    intro x hx
    rw [List.mem_map] at hx
    obtain ⟨e, he, rfl⟩ := hx
    exact hvals e (List.mem_of_mem_filter he)
  have hle := sum_map_filter_le queryMap
    (fun e => jsMapHas (jsMapOfList (candidateKeywords.map
      (fun kw => (kw.word, kw.importance)))) e.1) (fun e => e.2) hvals
  by_cases hpos : 0 < (queryMap.map (fun e => e.2)).sum
  · rw [if_pos hpos]
    constructor
    · positivity
    · rw [div_le_one hpos]
      exact hle
  · rw [if_neg hpos]
    exact ⟨le_refl 0, by norm_num⟩

theorem keywordCandidateScore_bounds (queryKeywords : List Keyword)
    (candidate : Document) (h : ∀ kw ∈ queryKeywords, 0 ≤ kw.importance) :
    0 ≤ keywordCandidateScore queryKeywords candidate
    ∧ keywordCandidateScore queryKeywords candidate ≤ 6/5 := by
  unfold keywordCandidateScore
  have hj1 := jaccardSimilarity_nonneg
    (jsSetDedup (queryKeywords.map (fun kw => kw.word)))
    (jsSetDedup (candidate.processed.keywords.map (fun kw => kw.word)))
  have hj2 := jaccardSimilarity_le_one
    (jsSetDedup (queryKeywords.map (fun kw => kw.word)))
    (jsSetDedup (candidate.processed.keywords.map (fun kw => kw.word)))
  have hb := calculateImportanceBoost_bounds queryKeywords
    candidate.processed.keywords h
  constructor
  · nlinarith [hb.1, hb.2]
  · nlinarith [hb.1, hb.2]

theorem keywordMatch_fold_bound (queryKeywords : List Keyword)
    (h : ∀ kw ∈ queryKeywords, 0 ≤ kw.importance) (cands : List Document) :
    ∀ (acc : Option Document × ℚ), 0 ≤ acc.2 → acc.2 ≤ 6/5 →
      0 ≤ (cands.foldl
        (fun (acc : Option Document × ℚ) candidate =>
          let weightedScore := keywordCandidateScore queryKeywords candidate
          if acc.2 < weightedScore then (some candidate, weightedScore) else acc)
        acc).2
      ∧ (cands.foldl
        (fun (acc : Option Document × ℚ) candidate =>
          let weightedScore := keywordCandidateScore queryKeywords candidate
          if acc.2 < weightedScore then (some candidate, weightedScore) else acc)
        acc).2 ≤ 6/5 := by
  induction cands with
  | nil => exact fun acc h1 h2 => ⟨h1, h2⟩
  | cons c rest ih =>
    intro acc h1 h2
    simp only [List.foldl_cons]
    have hc := keywordCandidateScore_bounds queryKeywords c h
    by_cases hlt : acc.2 < keywordCandidateScore queryKeywords c
    · exact ih _ (by simp only [hlt, if_true]; exact hc.1)
        (by simp only [hlt, if_true]; exact hc.2)
    · exact ih _ (by simp only [hlt, if_false]; exact h1)
        (by simp only [hlt, if_false]; exact h2)

/-- **C1** (amended: the keyword tier's rawScore lies in `[0, 1.2]`, not
`[0, 1]`).  For query keywords with non-negative importances (as produced by
the extractor) and any candidate set, a keyword-tier match's `rawScore` —
Jaccard similarity times `1 + 0.2 × importance-mass fraction` — lies in
`[0, 6/5]`. -/
theorem keyword_rawscore_bounds :
    ∀ (queryKeywords : List Keyword)
      (getQuestionsByKeywords : List JsStr → List Document),
      (∀ kw ∈ queryKeywords, 0 ≤ kw.importance) →
      ∀ r, keywordMatch queryKeywords getQuestionsByKeywords = some r →
        0 ≤ r.rawScore ∧ r.rawScore ≤ 6/5 := by
  intro q f hq r hr
  rw [keywordMatch] at hr
  by_cases h1 : q.isEmpty
  · rw [if_pos h1] at hr
    exact absurd hr (by simp)
  · rw [if_neg h1] at hr
    dsimp only at hr
    by_cases h2 : (f (q.map (fun kw => kw.word))).isEmpty
    · rw [if_pos h2] at hr
      exact absurd hr (by simp)
    · rw [if_neg h2] at hr
      have hbound := keywordMatch_fold_bound q hq (f (q.map (fun kw => kw.word)))
        (none, 0) (le_refl 0) (by norm_num)
      set best := (f (q.map (fun kw => kw.word))).foldl
        (fun (acc : Option Document × ℚ) candidate =>
          let weightedScore := keywordCandidateScore q candidate
          if acc.2 < weightedScore then (some candidate, weightedScore) else acc)
        ((none : Option Document), (0 : ℚ)) with hbest
      by_cases h3 : best.2 < MATCHING_CONFIG.KEYWORD_MIN_OVERLAP
      · rw [if_pos h3] at hr
        exact absurd hr (by simp)
      · rw [if_neg h3] at hr
        cases hb : best.1 with
        | none =>
          rw [hb] at hr
          exact absurd hr (by simp)
        | some bm =>
          rw [hb] at hr
          have := Option.some.inj hr
          subst this
          exact hbound

/-- Concrete query keywords for exercising the keyword tier. -/
def keywordQueryExample : List Keyword :=
  [⟨ofStr "capital", (1 : ℚ)/2, .common⟩, ⟨ofStr "france", (1 : ℚ)/2, .common⟩]

/-- A stored document carrying exactly the same keywords. -/
def keywordDocExample : Document :=
  ⟨1, ⟨ofStr "what is the capital of france", keywordQueryExample⟩⟩

/-- **C1 counterexample**: with identical query and candidate keyword sets,
Jaccard similarity is 1 and the importance boost is 1, so the returned
`rawScore` is `1 * (1 + 1 * 0.2) = 1.2 > 1`, outside the claimed `[0, 1]`. -/
theorem keyword_rawscore_exceeds_one_counterexample :
    (keywordMatch keywordQueryExample (fun _ => [keywordDocExample])).map
      (fun r => r.rawScore) = some ((6 : ℚ)/5)
    ∧ ¬ ((6 : ℚ)/5 ≤ 1) :=
  ⟨by decide, by decide⟩

/-- Witness for C1 at concrete inputs. -/
theorem keyword_rawscore_bounds_witness :
    0 ≤ ({ question := keywordDocExample
           matchType := .keyword
           confidence := 99/100
           rawScore := (6 : ℚ)/5
           explanation := .high (.keywordOverlap 120)
           metadata :=
             { tier := 2
               method := .keyword_jaccard
               candidatesEvaluated := some 1
               matchedKeywords := some [ofStr "capital", ofStr "france"] } } :
      MatchResult).rawScore
    ∧ ({ question := keywordDocExample
         matchType := .keyword
         confidence := 99/100
         rawScore := (6 : ℚ)/5
         explanation := .high (.keywordOverlap 120)
         metadata :=
           { tier := 2
             method := .keyword_jaccard
             candidatesEvaluated := some 1
             matchedKeywords := some [ofStr "capital", ofStr "france"] } } :
      MatchResult).rawScore ≤ 6/5 :=
  keyword_rawscore_bounds keywordQueryExample (fun _ => [keywordDocExample])
    (by decide) _ (by decide)

/-! ## `lib/normalization/text-normalizer.js`

Strings are lists of UTF-16 code units; regex character classes become
predicates on code units (`\w` = `[A-Za-z0-9_]`, `\s` = ECMAScript
WhiteSpace ∪ LineTerminator). -/

/-- ECMAScript `\w`. -/
def isWordCode (c : Nat) : Bool :=
  (48 ≤ c ∧ c ≤ 57) ∨ (65 ≤ c ∧ c ≤ 90) ∨ (97 ≤ c ∧ c ≤ 122) ∨ c = 95

/-- ECMAScript `\s` (WhiteSpace and LineTerminator code points). -/
def isSpaceCode (c : Nat) : Bool :=
  c = 32 ∨ c = 9 ∨ c = 10 ∨ c = 11 ∨ c = 12 ∨ c = 13 ∨ c = 0xA0 ∨ c = 0x1680 ∨
  (0x2000 ≤ c ∧ c ≤ 0x200A) ∨ c = 0x2028 ∨ c = 0x2029 ∨ c = 0x202F ∨
  c = 0x205F ∨ c = 0x3000 ∨ c = 0xFEFF

/-- `String.prototype.toLowerCase`, modelled on the code points these
theorems touch: ASCII letters are lowered, everything else is fixed. -/
def jsToLower (c : Nat) : Nat :=
  if 65 ≤ c ∧ c ≤ 90 then c + 32 else c

/-- `text.normalize('NFKC')`, modelled code-point-wise on the repertoire this
pipeline distinguishes: the ellipsis (U+2026) decomposes to `...`, the
compatibility spaces (U+00A0, U+2000–U+200A, U+202F, U+205F, U+3000) map to
a plain space, and the remaining handled code points (ASCII, smart
quotes/dashes, zero-width characters, U+1680) are NFKC-stable. -/
def nfkcCode (c : Nat) : List Nat :=
  if c = 0x2026 then [46, 46, 46]
  else if c = 0xA0 ∨ (0x2000 ≤ c ∧ c ≤ 0x200A) ∨ c = 0x202F ∨ c = 0x205F ∨
    c = 0x3000 then [32]
  else [c]

/-- Stage 1, `normalizeCharacters`: NFKC, smart quotes → straight quotes,
em/en dashes → hyphen, ellipsis → `...`, whitespace variants → space,
zero-width characters removed. -/
def normalizeCharacters (text : JsStr) : JsStr :=
  let t1 := (text.map nfkcCode).flatten
  let t2 := t1.map (fun c => if c = 0x2018 ∨ c = 0x2019 then 39 else c)
  let t3 := t2.map (fun c => if c = 0x201C ∨ c = 0x201D then 34 else c)
  let t4 := t3.map (fun c => if c = 0x2013 ∨ c = 0x2014 then 45 else c)
  let t5 := (t4.map (fun c => if c = 0x2026 then [46, 46, 46] else [c])).flatten
  let t6 := t5.map (fun c =>
    if c = 0xA0 ∨ c = 0x1680 ∨ (0x2000 ≤ c ∧ c ≤ 0x200B) ∨ c = 0x202F ∨
      c = 0x205F ∨ c = 0x3000 then 32 else c)
  t6.filter (fun c => ¬ ((0x200B ≤ c ∧ c ≤ 0x200D) ∨ c = 0xFEFF))

/-- A `[^\w\s]` character (stripped from the edges in stage 2). -/
def isEdgePunct (c : Nat) : Bool :=
  ¬ (isWordCode c) ∧ ¬ (isSpaceCode c)

/-- `/^[^\w\s]+|[^\w\s]+$/g`: strip a leading and a trailing run of
non-word, non-space characters. -/
def stripEdgePunct (t : JsStr) : JsStr :=
  ((t.dropWhile isEdgePunct).reverse.dropWhile isEdgePunct).reverse

/-- The scanner for `/(\s)-+(\s)/g → ' '`.  The state holds a pending
whitespace char together with the count of hyphens read after it. -/
def hyphenRule1Go : Option (Nat × Nat) → JsStr → JsStr
  | none, [] => []
  | some (s, n), [] => s :: List.replicate n 45
  | none, c :: rest =>
    if isSpaceCode c then hyphenRule1Go (some (c, 0)) rest
    else c :: hyphenRule1Go none rest
  | some (s, n), c :: rest =>
    if c = 45 then hyphenRule1Go (some (s, n + 1)) rest
    else if isSpaceCode c then
      if n = 0 then s :: hyphenRule1Go (some (c, 0)) rest
      else 32 :: hyphenRule1Go none rest
    else (s :: List.replicate n 45) ++ c :: hyphenRule1Go none rest

/-- `text.replace(/(\s)-+(\s)/g, ' ')`. -/
def hyphenRule1 (t : JsStr) : JsStr := hyphenRule1Go none t

/-- States of the `/(\s)-+/g` scanner: scanning, after a pending whitespace
char, or inside the hyphen run of a match. -/
inductive HyphenSt2 where
  | idle
  | pend (s : Nat)
  | run
deriving DecidableEq, Repr

/-- The scanner for `/(\s)-+/g → ' '`. -/
def hyphenRule2Go : HyphenSt2 → JsStr → JsStr
  | .idle, [] => []
  | .pend s, [] => [s]
  | .run, [] => []
  | .idle, c :: rest =>
    if isSpaceCode c then hyphenRule2Go (.pend c) rest
    else c :: hyphenRule2Go .idle rest
  | .pend s, c :: rest =>
    if c = 45 then 32 :: hyphenRule2Go .run rest
    else if isSpaceCode c then s :: hyphenRule2Go (.pend c) rest
    else s :: c :: hyphenRule2Go .idle rest
  | .run, c :: rest =>
    if c = 45 then hyphenRule2Go .run rest
    else if isSpaceCode c then hyphenRule2Go (.pend c) rest
    else c :: hyphenRule2Go .idle rest

/-- `text.replace(/(\s)-+/g, ' ')`. -/
def hyphenRule2 (t : JsStr) : JsStr := hyphenRule2Go .idle t

/-- The scanner for the global replace of `-+(\s)` by `' '`; the state
counts pending hyphens. -/
def hyphenRule3Go (n : Nat) : JsStr → JsStr
  | [] => List.replicate n 45
  | c :: rest =>
    if c = 45 then hyphenRule3Go (n + 1) rest
    else if 0 < n then
      if isSpaceCode c then 32 :: hyphenRule3Go 0 rest
      else List.replicate n 45 ++ c :: hyphenRule3Go 0 rest
    else c :: hyphenRule3Go 0 rest

/-- The third hyphen rule: replace every `-+(\s)` match by `' '`. -/
def hyphenRule3 (t : JsStr) : JsStr := hyphenRule3Go 0 t

/-- Map every character of a class to a replacement character. -/
def replaceClass (p : Nat → Bool) (r : Nat) (t : JsStr) : JsStr :=
  t.map (fun c => if p c then r else c)

/-- Stage 2, `normalizePunctuation`: edge strip; `[.,;:] → ' '`;
`[?!] → ' '` unless question marks are preserved; `["'`]` removed;
brackets → `' '`; `[<>|\/~^*+=_] → ' '`; then the three hyphen rules. -/
def normalizePunctuation (t : JsStr) (preserveQuestionMarks : Bool) : JsStr :=
  let t1 := stripEdgePunct t
  let t2 := replaceClass (fun c => c = 46 ∨ c = 44 ∨ c = 59 ∨ c = 58) 32 t1
  let t3 := if preserveQuestionMarks then t2
    else replaceClass (fun c => c = 63 ∨ c = 33) 32 t2
  let t4 := t3.filter (fun c => ¬ (c = 34 ∨ c = 39 ∨ c = 96))
  let t5 := replaceClass
    (fun c => c = 40 ∨ c = 41 ∨ c = 123 ∨ c = 125 ∨ c = 91 ∨ c = 93) 32 t4
  let t6 := replaceClass
    (fun c => c = 60 ∨ c = 62 ∨ c = 124 ∨ c = 92 ∨ c = 47 ∨ c = 126 ∨ c = 94 ∨
      c = 42 ∨ c = 43 ∨ c = 61 ∨ c = 95) 32 t5
  hyphenRule3 (hyphenRule2 (hyphenRule1 t6))

/-- Case-insensitive prefix match of `key` against `t` (the `i` flag on an
ASCII-literal pattern is lower-case comparison). -/
def matchesCI : JsStr → JsStr → Bool
  | [], _ => true
  | _ :: _, [] => false
  | k :: ks, c :: cs => jsToLower c = jsToLower k && matchesCI ks cs

/-- Word-ness of an optional character (no character counts as non-word). -/
def wordAt : Option Nat → Bool
  | none => false
  | some c => isWordCode c

/-- `\b` holds between two (optional) characters iff exactly one side is a
word character. -/
def wordBoundaryBetween (a b : Option Nat) : Bool :=
  wordAt a != wordAt b

/-- Does `\bkey\b` (case-insensitive) match at the start of `t`, whose
preceding original character is `prev`? -/
def wbMatch (key : JsStr) (prev : Option Nat) (t : JsStr) : Bool :=
  matchesCI key t
  && wordBoundaryBetween prev t.head?
  && wordBoundaryBetween ((t.take key.length).getLast?) (t.drop key.length).head?

/-- The scanner of `text.replace(new RegExp('\\b' + key + '\\b', 'gi'), exp)`:
`skip` counts original characters of the current match still to consume
(the replacement itself is never rescanned, matching `lastIndex` semantics),
and `prev` is the previous character of the original text (word boundaries
are evaluated on the original string). -/
def rwbGo (key exp : JsStr) : Nat → Option Nat → JsStr → JsStr
  | _, _, [] => []
  | skip + 1, _, c :: rest => rwbGo key exp skip (some c) rest
  | 0, prev, c :: rest =>
    if wbMatch key prev (c :: rest) then
      exp ++ rwbGo key exp (key.length - 1) (some c) rest
    else c :: rwbGo key exp 0 (some c) rest

/-- Global, case-insensitive, word-bounded replacement of `key` by `exp`. -/
def replaceWordBoundGI (key exp : JsStr) (t : JsStr) : JsStr :=
  rwbGo key exp 0 none t

/-- The contraction dictionary of `transformText`, in source order. -/
def contractionsTable : List (JsStr × JsStr) :=
  [(ofStr "don't", ofStr "do not"), (ofStr "doesn't", ofStr "does not"),
   (ofStr "didn't", ofStr "did not"), (ofStr "won't", ofStr "will not"),
   (ofStr "wouldn't", ofStr "would not"), (ofStr "can't", ofStr "cannot"),
   (ofStr "couldn't", ofStr "could not"), (ofStr "shouldn't", ofStr "should not"),
   (ofStr "isn't", ofStr "is not"), (ofStr "aren't", ofStr "are not"),
   (ofStr "wasn't", ofStr "was not"), (ofStr "weren't", ofStr "were not"),
   (ofStr "haven't", ofStr "have not"), (ofStr "hasn't", ofStr "has not"),
   (ofStr "hadn't", ofStr "had not"), (ofStr "i'm", ofStr "i am"),
   (ofStr "you're", ofStr "you are"), (ofStr "he's", ofStr "he is"),
   (ofStr "she's", ofStr "she is"), (ofStr "it's", ofStr "it is"),
   (ofStr "we're", ofStr "we are"), (ofStr "they're", ofStr "they are"),
   (ofStr "i've", ofStr "i have"), (ofStr "you've", ofStr "you have"),
   (ofStr "we've", ofStr "we have"), (ofStr "they've", ofStr "they have"),
   (ofStr "i'll", ofStr "i will"), (ofStr "you'll", ofStr "you will"),
   (ofStr "he'll", ofStr "he will"), (ofStr "she'll", ofStr "she will"),
   (ofStr "we'll", ofStr "we will"), (ofStr "they'll", ofStr "they will"),
   (ofStr "i'd", ofStr "i would"), (ofStr "you'd", ofStr "you would"),
   (ofStr "he'd", ofStr "he would"), (ofStr "she'd", ofStr "she would"),
   (ofStr "we'd", ofStr "we would"), (ofStr "they'd", ofStr "they would")]

/-- The number-word dictionary of `transformText`, in source order. -/
def numberWordsTable : List (JsStr × JsStr) :=
  [(ofStr "zero", ofStr "0"), (ofStr "one", ofStr "1"), (ofStr "two", ofStr "2"),
   (ofStr "three", ofStr "3"), (ofStr "four", ofStr "4"), (ofStr "five", ofStr "5"),
   (ofStr "six", ofStr "6"), (ofStr "seven", ofStr "7"), (ofStr "eight", ofStr "8"),
   (ofStr "nine", ofStr "9"), (ofStr "ten", ofStr "10"),
   (ofStr "eleven", ofStr "11"), (ofStr "twelve", ofStr "12"),
   (ofStr "thirteen", ofStr "13"), (ofStr "fourteen", ofStr "14"),
   (ofStr "fifteen", ofStr "15"), (ofStr "sixteen", ofStr "16"),
   (ofStr "seventeen", ofStr "17"), (ofStr "eighteen", ofStr "18"),
   (ofStr "nineteen", ofStr "19"), (ofStr "twenty", ofStr "20"),
   (ofStr "thirty", ofStr "30"), (ofStr "forty", ofStr "40"),
   (ofStr "fifty", ofStr "50"), (ofStr "sixty", ofStr "60"),
   (ofStr "seventy", ofStr "70"), (ofStr "eighty", ofStr "80"),
   (ofStr "ninety", ofStr "90"), (ofStr "hundred", ofStr "100"),
   (ofStr "thousand", ofStr "1000")]

/-- Apply a table of word-bounded, case-insensitive replacements in order. -/
def applyReplacements (pairs : List (JsStr × JsStr)) (t : JsStr) : JsStr :=
  pairs.foldl (fun acc p => replaceWordBoundGI p.1 p.2 acc) t

/-- The `options` record of `normalize` (defaults: lowercase and contraction
expansion on, number normalization and question-mark preservation off). -/
structure NormalizeOptions where
  lowercase : Bool
  expandContractions : Bool
  normalizeNumbers : Bool
  preserveQuestionMarks : Bool
deriving DecidableEq, Repr

/-- Stage 3, `transformText`: optional contraction expansion, optional
number-word conversion, optional lowercasing. -/
def transformText (t : JsStr) (opts : NormalizeOptions) : JsStr :=
  let t1 := if opts.expandContractions then applyReplacements contractionsTable t
    else t
  let t2 := if opts.normalizeNumbers then applyReplacements numberWordsTable t1
    else t1
  if opts.lowercase then t2.map jsToLower else t2

/-- The scanner of `text.replace(/\s+/g, ' ')`: the flag records whether the
previous character was inside a whitespace run. -/
def collapseWsGo (inRun : Bool) : JsStr → JsStr
  | [] => []
  | c :: rest =>
    if isSpaceCode c then
      if inRun then collapseWsGo true rest else 32 :: collapseWsGo true rest
    else c :: collapseWsGo false rest

/-- `text.replace(/\s+/g, ' ')`. -/
def collapseWs (t : JsStr) : JsStr := collapseWsGo false t

/-- `String.prototype.trim`. -/
def jsTrim (t : JsStr) : JsStr :=
  ((t.dropWhile isSpaceCode).reverse.dropWhile isSpaceCode).reverse

/-- Stage 4, `normalizeStructure`: collapse whitespace runs, then trim. -/
def normalizeStructure (t : JsStr) : JsStr := jsTrim (collapseWs t)

namespace TextNormalizer

/-- `normalize(text, options)`: empty (falsy) input yields the empty string,
otherwise the four stages run in order.  (Namespaced because Mathlib already
has a global `normalize`.) -/
def normalize (text : JsStr) (opts : NormalizeOptions) : JsStr :=
  if text.isEmpty then []
  else normalizeStructure
    (transformText (normalizePunctuation (normalizeCharacters text)
      opts.preserveQuestionMarks) opts)

end TextNormalizer

/-- `normalizeForMatching`: lowercase, contractions expanded, numbers kept,
question marks stripped. -/
def normalizeForMatching (text : JsStr) : JsStr :=
  TextNormalizer.normalize text
    { lowercase := true
      expandContractions := true
      normalizeNumbers := false
      preserveQuestionMarks := false }

/-- `normalizeForKeywords`: lowercase, contractions preserved, numbers kept,
question marks stripped. -/
def normalizeForKeywords (text : JsStr) : JsStr :=
  TextNormalizer.normalize text
    { lowercase := true
      expandContractions := false
      normalizeNumbers := false
      preserveQuestionMarks := false }

/-- **C5** (evaluation at the failing input): the matching preset does NOT
expand `"don't"` to `"do not"`; it returns `"dont"`.  Stage 2 removes every
apostrophe (`/["'`]/g`), despite its own comment "Keep: … apostrophe (for
contractions)", before stage 3's contraction dictionary — whose keys all
contain an apostrophe — ever runs, so no contraction can ever match. -/
theorem normalizeForMatching_dont_not_expanded :
    normalizeForMatching (ofStr "don't") = ofStr "dont"
    ∧ normalizeForMatching (ofStr "don't") ≠ ofStr "do not" := by
  constructor
  · decide
  · decide

/-- **C4 counterexample**: `normalize` is not idempotent.  With the default
option set, `normalize "a & ." = "a &"` (the trailing `.` is edge-stripped,
the interior `&` — in no removal class — survives), but normalizing again
edge-strips the now-trailing `&`, giving `"a"`. -/
theorem normalize_not_idempotent_counterexample :
    TextNormalizer.normalize
        (TextNormalizer.normalize (ofStr "a & .")
          ⟨true, true, false, false⟩) ⟨true, true, false, false⟩
      ≠ TextNormalizer.normalize (ofStr "a & .") ⟨true, true, false, false⟩
    ∧ TextNormalizer.normalize (ofStr "a & .") ⟨true, true, false, false⟩
      = ofStr "a &"
    ∧ TextNormalizer.normalize (ofStr "a &") ⟨true, true, false, false⟩
      = ofStr "a" := by
  refine ⟨?_, ?_, ?_⟩
  · decide
  · decide
  · decide

/-! ### Idempotence of `normalize` on plain alphanumeric/space text -/

/-- ASCII letters, digits and the plain space: the alphabet on which the
amended idempotence claim is proved. -/
def isPlainCode (c : Nat) : Bool :=
  (48 ≤ c ∧ c ≤ 57) ∨ (65 ≤ c ∧ c ≤ 90) ∨ (97 ≤ c ∧ c ≤ 122) ∨ c = 32

theorem map_id_of {α : Type} (f : α → α) (l : List α) (h : ∀ x ∈ l, f x = x) :
    l.map f = l := by
  induction l with
  | nil => rfl
  | cons x xs ih =>
    rw [List.map_cons, h x (List.mem_cons_self _ _),
      ih (fun y hy => h y (List.mem_cons_of_mem _ hy))]

theorem flatten_map_singleton {α : Type} (f : α → List α) (l : List α)
    (h : ∀ x ∈ l, f x = [x]) : (l.map f).flatten = l := by
  induction l with
  | nil => rfl
  | cons x xs ih =>
    rw [List.map_cons, List.flatten_cons, h x (List.mem_cons_self _ _),
      ih (fun y hy => h y (List.mem_cons_of_mem _ hy))]
    rfl

theorem dropWhile_id_of_false {α : Type} (p : α → Bool) (l : List α)
    (h : ∀ x ∈ l, p x = false) : l.dropWhile p = l := by
  cases l with
  | nil => rfl
  | cons x xs =>
    rw [List.dropWhile_cons, h x (List.mem_cons_self _ _)]
    simp

theorem isPlainCode_le (c : Nat) (h : isPlainCode c = true) : c ≤ 122 := by
  simp only [isPlainCode, decide_eq_true_eq] at h
  omega

theorem normalizeCharacters_plain (t : JsStr) (h : ∀ c ∈ t, isPlainCode c = true) :
    normalizeCharacters t = t := by
  unfold normalizeCharacters
  dsimp only
  have h122 : ∀ c ∈ t, c ≤ 122 := fun c hc => isPlainCode_le c (h c hc)
  have e1 : (t.map nfkcCode).flatten = t := by
    apply flatten_map_singleton
    intro c hc
    have := h122 c hc
    unfold nfkcCode
    rw [if_neg (by omega), if_neg (by push_neg; omega)]
  rw [e1]
  have e2 : t.map (fun c => if c = 0x2018 ∨ c = 0x2019 then 39 else c) = t := by
    apply map_id_of
    intro c hc
    have := h122 c hc
    rw [if_neg (by omega)]
  rw [e2]
  have e3 : t.map (fun c => if c = 0x201C ∨ c = 0x201D then 34 else c) = t := by
    apply map_id_of
    intro c hc
    have := h122 c hc
    rw [if_neg (by omega)]
  rw [e3]
  have e4 : t.map (fun c => if c = 0x2013 ∨ c = 0x2014 then 45 else c) = t := by
    apply map_id_of
    intro c hc
    have := h122 c hc
    rw [if_neg (by omega)]
  rw [e4]
  have e5 : (t.map (fun c => if c = 0x2026 then [46, 46, 46] else [c])).flatten = t := by
    apply flatten_map_singleton
    intro c hc
    have := h122 c hc
    rw [if_neg (by omega)]
  rw [e5]
  have e6 : t.map (fun c =>
      if c = 0xA0 ∨ c = 0x1680 ∨ (0x2000 ≤ c ∧ c ≤ 0x200B) ∨ c = 0x202F ∨
        c = 0x205F ∨ c = 0x3000 then 32 else c) = t := by
    apply map_id_of
    intro c hc
    have := h122 c hc
    rw [if_neg (by push_neg; omega)]
  rw [e6]
  apply List.filter_eq_self.mpr
  intro c hc
  have := h122 c hc
  simp only [decide_eq_true_eq]
  push_neg
  omega

theorem isPlainCode_word_or_space (c : Nat) (h : isPlainCode c = true) :
    isWordCode c = true ∨ c = 32 := by
  simp only [isPlainCode, decide_eq_true_eq] at h
  simp only [isWordCode, decide_eq_true_eq]
  omega

theorem isEdgePunct_false_of_plain (c : Nat) (h : isPlainCode c = true) :
    isEdgePunct c = false := by
  simp only [isPlainCode, decide_eq_true_eq] at h
  simp only [isEdgePunct, isWordCode, isSpaceCode, decide_eq_true_eq,
    Bool.decide_and, Bool.and_eq_false_iff, decide_eq_false_iff_not]
  simp only [not_not]
  omega

theorem stripEdgePunct_plain (t : JsStr) (h : ∀ c ∈ t, isPlainCode c = true) :
    stripEdgePunct t = t := by
  unfold stripEdgePunct
  have h1 : t.dropWhile isEdgePunct = t :=
    dropWhile_id_of_false _ _ (fun c hc => isEdgePunct_false_of_plain c (h c hc))
  rw [h1]
  have h2 : t.reverse.dropWhile isEdgePunct = t.reverse :=
    dropWhile_id_of_false _ _ (fun c hc =>
      isEdgePunct_false_of_plain c (h c (List.mem_reverse.mp hc)))
  rw [h2, List.reverse_reverse]

theorem hyphenRule1Go_no45 (t : JsStr) (h : ∀ c ∈ t, c ≠ 45) :
    hyphenRule1Go none t = t ∧ ∀ s, hyphenRule1Go (some (s, 0)) t = s :: t := by
  induction t with
  | nil => exact ⟨rfl, fun s => rfl⟩
  | cons c rest ih =>
    have hc : c ≠ 45 := h c (List.mem_cons_self _ _)
    have ihr := ih (fun d hd => h d (List.mem_cons_of_mem _ hd))
    constructor
    · show hyphenRule1Go none (c :: rest) = c :: rest
      unfold hyphenRule1Go
      by_cases hs : isSpaceCode c
      · rw [if_pos hs, ihr.2 c]
      · rw [if_neg hs, ihr.1]
    · intro s
      show hyphenRule1Go (some (s, 0)) (c :: rest) = s :: c :: rest
      unfold hyphenRule1Go
      rw [if_neg hc]
      by_cases hs : isSpaceCode c
      · rw [if_pos hs, if_pos rfl, ihr.2 c]
      · rw [if_neg hs, ihr.1]
        rfl

theorem hyphenRule2Go_no45 (t : JsStr) (h : ∀ c ∈ t, c ≠ 45) :
    hyphenRule2Go .idle t = t ∧ ∀ s, hyphenRule2Go (.pend s) t = s :: t := by
  induction t with
  | nil => exact ⟨rfl, fun s => rfl⟩
  | cons c rest ih =>
    have hc : c ≠ 45 := h c (List.mem_cons_self _ _)
    have ihr := ih (fun d hd => h d (List.mem_cons_of_mem _ hd))
    constructor
    · show hyphenRule2Go .idle (c :: rest) = c :: rest
      unfold hyphenRule2Go
      by_cases hs : isSpaceCode c
      · rw [if_pos hs, ihr.2 c]
      · rw [if_neg hs, ihr.1]
    · intro s
      show hyphenRule2Go (.pend s) (c :: rest) = s :: c :: rest
      unfold hyphenRule2Go
      rw [if_neg hc]
      by_cases hs : isSpaceCode c
      · rw [if_pos hs, ihr.2 c]
      · rw [if_neg hs, ihr.1]

theorem hyphenRule3Go_no45 (t : JsStr) (h : ∀ c ∈ t, c ≠ 45) :
    hyphenRule3Go 0 t = t := by
  induction t with
  | nil => rfl
  | cons c rest ih =>
    have hc : c ≠ 45 := h c (List.mem_cons_self _ _)
    show hyphenRule3Go 0 (c :: rest) = c :: rest
    unfold hyphenRule3Go
    rw [if_neg hc, if_neg (by omega), ih (fun d hd => h d (List.mem_cons_of_mem _ hd))]

theorem plain_ne_45 (c : Nat) (h : isPlainCode c = true) : c ≠ 45 := by
  simp only [isPlainCode, decide_eq_true_eq] at h
  omega

theorem normalizePunctuation_plain (t : JsStr) (q : Bool)
    (h : ∀ c ∈ t, isPlainCode c = true) :
    normalizePunctuation t q = t := by
  unfold normalizePunctuation
  dsimp only
  have hle : ∀ c ∈ t, c ≤ 122 := fun c hc => isPlainCode_le c (h c hc)
  have hplain : ∀ c ∈ t, (48 ≤ c ∧ c ≤ 57) ∨ (65 ≤ c ∧ c ≤ 90) ∨
      (97 ≤ c ∧ c ≤ 122) ∨ c = 32 := by
    intro c hc
    have := h c hc
    simpa [isPlainCode, decide_eq_true_eq] using this
  rw [stripEdgePunct_plain t h]
  have e2 : replaceClass (fun c => c = 46 ∨ c = 44 ∨ c = 59 ∨ c = 58) 32 t = t := by
    apply map_id_of
    intro c hc
    have := hplain c hc
    rw [if_neg (by simp only [decide_eq_true_eq]; omega)]
  rw [e2]
  have e3 : (if q then t
      else replaceClass (fun c => c = 63 ∨ c = 33) 32 t) = t := by
    split
    · rfl
    · apply map_id_of
      intro c hc
      have := hplain c hc
      rw [if_neg (by simp only [decide_eq_true_eq]; omega)]
  rw [e3]
  have e4 : t.filter (fun c => ¬ (c = 34 ∨ c = 39 ∨ c = 96)) = t := by
    apply List.filter_eq_self.mpr
    intro c hc
    have := hplain c hc
    simp only [decide_eq_true_eq]
    omega
  rw [e4]
  have e5 : replaceClass
      (fun c => c = 40 ∨ c = 41 ∨ c = 123 ∨ c = 125 ∨ c = 91 ∨ c = 93) 32 t = t := by
    apply map_id_of
    intro c hc
    have := hplain c hc
    rw [if_neg (by simp only [decide_eq_true_eq]; omega)]
  rw [e5]
  have e6 : replaceClass
      (fun c => c = 60 ∨ c = 62 ∨ c = 124 ∨ c = 92 ∨ c = 47 ∨ c = 126 ∨ c = 94 ∨
        c = 42 ∨ c = 43 ∨ c = 61 ∨ c = 95) 32 t = t := by
    apply map_id_of
    intro c hc
    have := hplain c hc
    rw [if_neg (by simp only [decide_eq_true_eq]; omega)]
  rw [e6]
  have h45 : ∀ c ∈ t, c ≠ 45 := fun c hc => plain_ne_45 c (h c hc)
  unfold hyphenRule1 hyphenRule2 hyphenRule3
  rw [(hyphenRule1Go_no45 t h45).1, (hyphenRule2Go_no45 t h45).1,
    hyphenRule3Go_no45 t h45]

theorem matchesCI_mem_of_mem_key (key t : JsStr) (k : Nat) (hk : k ∈ key)
    (hm : matchesCI key t = true) : ∃ c ∈ t, jsToLower c = jsToLower k := by
  induction key generalizing t with
  | nil => simp at hk
  | cons k0 ks ih =>
    cases t with
    | nil => simp [matchesCI] at hm
    | cons c cs =>
      simp only [matchesCI, Bool.and_eq_true, decide_eq_true_eq] at hm
      rcases List.mem_cons.mp hk with rfl | hk'
      · exact ⟨c, List.mem_cons_self _ _, hm.1⟩
      · obtain ⟨d, hd, hdl⟩ := ih cs hk' hm.2
        exact ⟨d, List.mem_cons_of_mem _ hd, hdl⟩

theorem jsToLower_eq_39 (c : Nat) (h : jsToLower c = 39) : c = 39 := by
  unfold jsToLower at h
  split at h <;> omega

theorem replaceWordBoundGI_id_no_apostrophe (key exp t : JsStr)
    (hk : (39 : Nat) ∈ key) (ht : ∀ c ∈ t, c ≠ 39) :
    replaceWordBoundGI key exp t = t := by
  unfold replaceWordBoundGI
  suffices H : ∀ (t' : JsStr) (prev : Option Nat), (∀ c ∈ t', c ≠ 39) →
      rwbGo key exp 0 prev t' = t' from H t none ht
  intro t'
  induction t' with
  | nil => intro prev _; rfl
  | cons c rest ih =>
    intro prev h39
    show rwbGo key exp 0 prev (c :: rest) = c :: rest
    unfold rwbGo
    have hnm : wbMatch key prev (c :: rest) = false := by
      by_contra hcon
      have hmt : wbMatch key prev (c :: rest) = true := by
        cases hhh : wbMatch key prev (c :: rest)
        · exact absurd hhh hcon
        · rfl
      unfold wbMatch at hmt
      simp only [Bool.and_eq_true] at hmt
      obtain ⟨d, hd, hdl⟩ := matchesCI_mem_of_mem_key key (c :: rest) 39 hk hmt.1.1
      have : jsToLower (39 : Nat) = 39 := rfl
      rw [this] at hdl
      exact h39 d hd (jsToLower_eq_39 d hdl)
    rw [if_neg (by rw [hnm]; exact Bool.false_ne_true)]
    rw [ih (some c) (fun d hd => h39 d (List.mem_cons_of_mem _ hd))]

theorem applyReplacements_id_no_apostrophe (pairs : List (JsStr × JsStr))
    (t : JsStr) (hp : ∀ p ∈ pairs, (39 : Nat) ∈ p.1) (ht : ∀ c ∈ t, c ≠ 39) :
    applyReplacements pairs t = t := by
  induction pairs with
  | nil => rfl
  | cons p rest ih =>
    unfold applyReplacements at ih ⊢
    rw [List.foldl_cons,
      replaceWordBoundGI_id_no_apostrophe p.1 p.2 t (hp p (List.mem_cons_self _ _)) ht,
      ih (fun q hq => hp q (List.mem_cons_of_mem _ hq))]

theorem contractionsTable_all_apostrophe :
    ∀ p ∈ contractionsTable, (39 : Nat) ∈ p.1 := by decide

theorem transformText_plain (t : JsStr) (opts : NormalizeOptions)
    (hnum : opts.normalizeNumbers = false) (ht : ∀ c ∈ t, c ≠ 39) :
    transformText t opts = if opts.lowercase then t.map jsToLower else t := by
  unfold transformText
  dsimp only
  rw [hnum]
  have e1 : (if opts.expandContractions then applyReplacements contractionsTable t
      else t) = t := by
    split
    · exact applyReplacements_id_no_apostrophe _ _ contractionsTable_all_apostrophe ht
    · rfl
  rw [e1]
  simp only [Bool.false_eq_true, if_false]

/-- The no-two-adjacent-whitespace relation of a collapsed string. -/
def NoAdjSp (a b : Nat) : Prop :=
  isSpaceCode a = false ∨ isSpaceCode b = false

theorem mem_collapseWsGo (t : JsStr) (b : Bool) (c : Nat)
    (h : c ∈ collapseWsGo b t) : c ∈ t ∨ c = 32 := by
  induction t generalizing b with
  | nil => simp [collapseWsGo] at h
  | cons d rest ih =>
    unfold collapseWsGo at h
    by_cases hs : isSpaceCode d
    · rw [if_pos hs] at h
      by_cases hb : b = true
      · subst hb
        rw [if_pos rfl] at h
        rcases ih true h with h' | h'
        · exact Or.inl (List.mem_cons_of_mem _ h')
        · exact Or.inr h'
      · have hb' : b = false := by cases b; rfl; exact absurd rfl hb
        subst hb'
        simp only [Bool.false_eq_true, if_false] at h
        rcases List.mem_cons.mp h with rfl | h'
        · exact Or.inr rfl
        · rcases ih true h' with h'' | h''
          · exact Or.inl (List.mem_cons_of_mem _ h'')
          · exact Or.inr h''
    · rw [if_neg hs] at h
      rcases List.mem_cons.mp h with rfl | h'
      · exact Or.inl (List.mem_cons_self _ _)
      · rcases ih false h' with h'' | h''
        · exact Or.inl (List.mem_cons_of_mem _ h'')
        · exact Or.inr h''

theorem collapseWsGo_spaces32 (t : JsStr) (b : Bool) :
    ∀ c ∈ collapseWsGo b t, isSpaceCode c = true → c = 32 := by
  induction t generalizing b with
  | nil => simp [collapseWsGo]
  | cons d rest ih =>
    intro c hc hcs
    unfold collapseWsGo at hc
    by_cases hs : isSpaceCode d
    · rw [if_pos hs] at hc
      by_cases hb : b = true
      · subst hb
        rw [if_pos rfl] at hc
        exact ih true c hc hcs
      · have hb' : b = false := by cases b; rfl; exact absurd rfl hb
        subst hb'
        simp only [Bool.false_eq_true, if_false] at hc
        rcases List.mem_cons.mp hc with rfl | hc'
        · rfl
        · exact ih true c hc' hcs
    · rw [if_neg hs] at hc
      rcases List.mem_cons.mp hc with rfl | hc'
      · exact absurd hcs (by simp [hs])
      · exact ih false c hc' hcs

theorem collapseWsGo_cons (b : Bool) (c : Nat) (rest : JsStr) :
    collapseWsGo b (c :: rest) =
      if isSpaceCode c then
        (if b then collapseWsGo true rest else 32 :: collapseWsGo true rest)
      else c :: collapseWsGo false rest := rfl

/-- The head of a collapsed-with-run-state string is never whitespace, and the
collapsed output never contains two adjacent whitespace characters. -/
theorem collapseWsGo_chain (t : JsStr) :
    (∀ d, (collapseWsGo true t).head? = some d → isSpaceCode d = false)
    ∧ List.Chain' NoAdjSp (collapseWsGo true t)
    ∧ List.Chain' NoAdjSp (collapseWsGo false t) := by
  induction t with
  | nil => exact ⟨by simp [collapseWsGo], by simp [collapseWsGo], by simp [collapseWsGo]⟩
  | cons c rest ih =>
    obtain ⟨ihHead, ihTrue, ihFalse⟩ := ih
    by_cases hs : isSpaceCode c
    · have eTrue : collapseWsGo true (c :: rest) = collapseWsGo true rest := by
        rw [collapseWsGo_cons, if_pos hs, if_pos rfl]
      have eFalse : collapseWsGo false (c :: rest) = 32 :: collapseWsGo true rest := by
        rw [collapseWsGo_cons, if_pos hs]
        simp
      refine ⟨?_, ?_, ?_⟩
      · rw [eTrue]; exact ihHead
      · rw [eTrue]; exact ihTrue
      · rw [eFalse]
        rw [List.chain'_cons']
        refine ⟨?_, ihTrue⟩
        intro y hy
        exact Or.inr (ihHead y (by simpa using hy))
    · have eTrue : collapseWsGo true (c :: rest) = c :: collapseWsGo false rest := by
        rw [collapseWsGo_cons, if_neg hs]
      have eFalse : collapseWsGo false (c :: rest) = c :: collapseWsGo false rest := by
        rw [collapseWsGo_cons, if_neg hs]
      have hchain : List.Chain' NoAdjSp (c :: collapseWsGo false rest) := by
        rw [List.chain'_cons']
        refine ⟨?_, ihFalse⟩
        intro y _
        exact Or.inl (by simpa using hs)
      refine ⟨?_, ?_, ?_⟩
      · rw [eTrue]
        intro d hd
        simp only [List.head?_cons, Option.some.injEq] at hd
        subst hd
        simpa using hs
      · rw [eTrue]; exact hchain
      · rw [eFalse]; exact hchain

theorem mem_jsTrim (t : JsStr) (c : Nat) (h : c ∈ jsTrim t) : c ∈ t := by
  unfold jsTrim at h
  rw [List.mem_reverse] at h
  have h1 := (List.dropWhile_sublist isSpaceCode).mem h
  rw [List.mem_reverse] at h1
  exact (List.dropWhile_sublist isSpaceCode).mem h1

theorem noAdjSp_flip (l : JsStr) (h : List.Chain' NoAdjSp l) :
    List.Chain' (flip NoAdjSp) l :=
  List.Chain'.imp (fun _ _ hab => Or.symm hab) h

theorem jsTrim_chain (t : JsStr) (h : List.Chain' NoAdjSp t) :
    List.Chain' NoAdjSp (jsTrim t) := by
  unfold jsTrim
  have h1 : List.Chain' NoAdjSp (t.dropWhile isSpaceCode) :=
    h.suffix (List.dropWhile_suffix _)
  have h2 : List.Chain' NoAdjSp (t.dropWhile isSpaceCode).reverse :=
    List.chain'_reverse.mpr (noAdjSp_flip _ h1)
  have h3 : List.Chain' NoAdjSp
      ((t.dropWhile isSpaceCode).reverse.dropWhile isSpaceCode) :=
    h2.suffix (List.dropWhile_suffix _)
  exact List.chain'_reverse.mpr (noAdjSp_flip _ h3)

theorem head_dropWhile_false (p : Nat → Bool) (l : JsStr) (d : Nat)
    (h : (l.dropWhile p).head? = some d) : p d = false := by
  have := List.head?_dropWhile_not p l
  rw [h] at this
  exact this

theorem getLast?_of_suffix {α : Type} {l₁ l : List α} (h : l₁ <:+ l)
    (hne : l₁ ≠ []) : l₁.getLast? = l.getLast? := by
  obtain ⟨pre, rfl⟩ := h
  exact (List.getLast?_append_of_ne_nil pre hne).symm

theorem jsTrim_head_not_space (t : JsStr) (d : Nat)
    (h : (jsTrim t).head? = some d) : isSpaceCode d = false := by
  unfold jsTrim at h
  rw [List.head?_reverse] at h
  have hne : ((t.dropWhile isSpaceCode).reverse.dropWhile isSpaceCode) ≠ [] := by
    intro hnil
    rw [hnil] at h
    simp at h
  have heq := getLast?_of_suffix (List.dropWhile_suffix isSpaceCode) hne
  rw [heq, List.getLast?_reverse] at h
  exact head_dropWhile_false _ _ _ h

theorem jsTrim_getLast_not_space (t : JsStr) (d : Nat)
    (h : (jsTrim t).getLast? = some d) : isSpaceCode d = false := by
  unfold jsTrim at h
  rw [List.getLast?_reverse] at h
  exact head_dropWhile_false _ _ _ h

theorem collapseWs_id_of_collapsed (t : JsStr)
    (hA : ∀ c ∈ t, isSpaceCode c = true → c = 32)
    (hB : List.Chain' NoAdjSp t) :
    collapseWsGo false t = t
    ∧ ((∀ d, t.head? = some d → isSpaceCode d = false) → collapseWsGo true t = t) := by
  induction t with
  | nil => exact ⟨rfl, fun _ => rfl⟩
  | cons c rest ih =>
    have hArest : ∀ c ∈ rest, isSpaceCode c = true → c = 32 :=
      fun d hd => hA d (List.mem_cons_of_mem _ hd)
    have hBrest : List.Chain' NoAdjSp rest := (List.chain'_cons'.mp hB).2
    have ihr := ih hArest hBrest
    by_cases hs : isSpaceCode c
    · have hc32 : c = 32 := hA c (List.mem_cons_self _ _) hs
      have hheadrest : ∀ d, rest.head? = some d → isSpaceCode d = false := by
        intro d hd
        have := (List.chain'_cons'.mp hB).1 d hd
        rcases this with h' | h'
        · rw [hs] at h'
          exact absurd h' (by simp)
        · exact h'
      constructor
      · rw [collapseWsGo_cons, if_pos hs]
        simp only [Bool.false_eq_true, if_false]
        rw [ihr.2 hheadrest, hc32]
      · intro hhd
        have := hhd c (by simp)
        rw [hs] at this
        exact absurd this (by simp)
    · constructor
      · rw [collapseWsGo_cons, if_neg hs, ihr.1]
      · intro _
        rw [collapseWsGo_cons, if_neg hs, ihr.1]

theorem jsTrim_id_of_trimmed (t : JsStr)
    (hh : ∀ d, t.head? = some d → isSpaceCode d = false)
    (hl : ∀ d, t.getLast? = some d → isSpaceCode d = false) :
    jsTrim t = t := by
  unfold jsTrim
  have e1 : t.dropWhile isSpaceCode = t := by
    cases t with
    | nil => rfl
    | cons c r =>
      rw [List.dropWhile_cons, hh c (by simp)]
      simp
  rw [e1]
  have e2 : t.reverse.dropWhile isSpaceCode = t.reverse := by
    cases hr : t.reverse with
    | nil => rfl
    | cons c r =>
      rw [List.dropWhile_cons]
      have : t.reverse.head? = some c := by rw [hr]; rfl
      rw [List.head?_reverse] at this
      rw [hl c this]
      simp
  rw [e2, List.reverse_reverse]

/-- `normalizeStructure` is idempotent. -/
theorem normalizeStructure_fixes (z : JsStr) :
    normalizeStructure (normalizeStructure z) = normalizeStructure z := by
  have hA : ∀ c ∈ collapseWs z, isSpaceCode c = true → c = 32 :=
    collapseWsGo_spaces32 z false
  have hB : List.Chain' NoAdjSp (collapseWs z) := (collapseWsGo_chain z).2.2
  have hAO : ∀ c ∈ normalizeStructure z, isSpaceCode c = true → c = 32 := by
    intro c hc
    exact hA c (mem_jsTrim _ _ hc)
  have hBO : List.Chain' NoAdjSp (normalizeStructure z) := jsTrim_chain _ hB
  have hhO : ∀ d, (normalizeStructure z).head? = some d → isSpaceCode d = false :=
    fun d hd => jsTrim_head_not_space _ d hd
  have hlO : ∀ d, (normalizeStructure z).getLast? = some d → isSpaceCode d = false :=
    fun d hd => jsTrim_getLast_not_space _ d hd
  show jsTrim (collapseWs (normalizeStructure z)) = normalizeStructure z
  rw [show collapseWs (normalizeStructure z) = normalizeStructure z from
    (collapseWs_id_of_collapsed _ hAO hBO).1]
  exact jsTrim_id_of_trimmed _ hhO hlO

theorem jsToLower_idem (c : Nat) : jsToLower (jsToLower c) = jsToLower c := by
  unfold jsToLower
  split
  · rw [if_neg (by omega)]
  · rfl

theorem jsToLower_plain (c : Nat) (h : isPlainCode c = true) :
    isPlainCode (jsToLower c) = true := by
  simp only [isPlainCode, decide_eq_true_eq] at h ⊢
  unfold jsToLower
  split <;> omega

theorem plain_ne_39 (c : Nat) (h : isPlainCode c = true) : c ≠ 39 := by
  simp only [isPlainCode, decide_eq_true_eq] at h
  omega

theorem mem_normalizeStructure (z : JsStr) (c : Nat)
    (h : c ∈ normalizeStructure z) : c ∈ z ∨ c = 32 := by
  have h1 := mem_jsTrim _ _ h
  exact mem_collapseWsGo z false c h1

/-- The three text stages act as `maybe-lowercase` on plain text when number
normalization is off. -/
theorem normalize_plain_shape (t : JsStr) (opts : NormalizeOptions)
    (hnum : opts.normalizeNumbers = false)
    (hplain : ∀ c ∈ t, isPlainCode c = true) (hne : t.isEmpty = false) :
    TextNormalizer.normalize t opts =
      normalizeStructure (if opts.lowercase then t.map jsToLower else t) := by
  unfold TextNormalizer.normalize
  rw [hne]
  simp only [Bool.false_eq_true, if_false]
  rw [normalizeCharacters_plain t hplain,
    normalizePunctuation_plain t opts.preserveQuestionMarks hplain,
    transformText_plain t opts hnum (fun c hc => plain_ne_39 c (hplain c hc))]

/-- **C4** (amended: idempotence on letters/digits/spaces with
`normalizeNumbers` off).  For every option set with number conversion
disabled and every input over ASCII letters, digits and spaces,
`normalize` is idempotent.  (The unrestricted claim is false: see the
counterexample, where a surviving interior symbol becomes trailing
punctuation for the second pass.) -/
theorem normalize_idempotent_on_plain :
    ∀ (opts : NormalizeOptions) (t : JsStr),
      opts.normalizeNumbers = false →
      (∀ c ∈ t, isPlainCode c = true) →
      TextNormalizer.normalize (TextNormalizer.normalize t opts) opts
        = TextNormalizer.normalize t opts := by
  intro opts t hnum hplain
  by_cases h0 : t.isEmpty
  · have ht : t = [] := by
      cases t
      · rfl
      · simp [List.isEmpty] at h0
    subst ht
    rfl
  · have hne : t.isEmpty = false := by
      cases hi : t.isEmpty
      · rfl
      · exact absurd hi (by simpa using h0)
    rw [normalize_plain_shape t opts hnum hplain hne]
    set L := if opts.lowercase then t.map jsToLower else t with hL
    have hLplain : ∀ c ∈ L, isPlainCode c = true := by
      intro c hc
      rw [hL] at hc
      by_cases hlc : opts.lowercase
      · rw [if_pos hlc] at hc
        rw [List.mem_map] at hc
        obtain ⟨d, hd, rfl⟩ := hc
        exact jsToLower_plain d (hplain d hd)
      · rw [if_neg hlc] at hc
        exact hplain c hc
    set O := normalizeStructure L with hO
    have hOplain : ∀ c ∈ O, isPlainCode c = true := by
      intro c hc
      rcases mem_normalizeStructure L c (hO ▸ hc) with h' | h'
      · exact hLplain c h'
      · rw [h']; rfl
    by_cases hOe : O.isEmpty
    · have hOnil : O = [] := by
        cases hOc : O
        · rfl
        · rw [hOc] at hOe; simp [List.isEmpty] at hOe
      rw [hOnil]
      rfl
    · have hOne : O.isEmpty = false := by
        cases hi : O.isEmpty
        · rfl
        · exact absurd hi (by simpa using hOe)
      rw [normalize_plain_shape O opts hnum hOplain hOne]
      have hfix : (if opts.lowercase then O.map jsToLower else O) = O := by
        by_cases hlc : opts.lowercase
        · rw [if_pos hlc]
          apply map_id_of
          intro c hc
          rcases mem_normalizeStructure L c (hO ▸ hc) with h' | h'
          · rw [hL] at h'
            rw [if_pos hlc] at h'
            rw [List.mem_map] at h'
            obtain ⟨d, _, rfl⟩ := h'
            exact jsToLower_idem d
          · rw [h']; rfl
        · rw [if_neg hlc]
      rw [hfix, hO]
      exact normalizeStructure_fixes L

/-- Witness for C4 at a concrete input and option set. -/
theorem normalize_idempotent_on_plain_witness :
    TextNormalizer.normalize
        (TextNormalizer.normalize (ofStr "Hello   World 42")
          ⟨true, true, false, false⟩) ⟨true, true, false, false⟩
      = TextNormalizer.normalize (ofStr "Hello   World 42")
          ⟨true, true, false, false⟩ :=
  normalize_idempotent_on_plain ⟨true, true, false, false⟩
    (ofStr "Hello   World 42") rfl (by decide)

/- ====================================================================
   stopwords.js and keyword-extractor.js (claim C6)

   Translated from src/unnamed/part_007 (lib/normalization/stopwords
   and lib/normalization/keyword-extractor). The one transcendental
   operation, Math.log, is an explicit parameter jsLog : Q -> Q; every
   theorem below holds for an arbitrary jsLog.
   ==================================================================== -/

/-- `ENGLISH_STOPWORDS` (in source order; `Set` membership is list membership). -/
def ENGLISH_STOPWORDS : List JsStr :=
  [ofStr "a", ofStr "an", ofStr "the", ofStr "i", ofStr "you", ofStr "he",
   ofStr "she", ofStr "it", ofStr "we", ofStr "they", ofStr "them",
   ofStr "their", ofStr "theirs", ofStr "me", ofStr "him", ofStr "her",
   ofStr "us", ofStr "my", ofStr "your", ofStr "his", ofStr "its",
   ofStr "our", ofStr "myself", ofStr "yourself", ofStr "himself",
   ofStr "herself", ofStr "itself", ofStr "ourselves", ofStr "themselves",
   ofStr "this", ofStr "that", ofStr "these", ofStr "those", ofStr "in",
   ofStr "on", ofStr "at", ofStr "to", ofStr "for", ofStr "with",
   ofStr "from", ofStr "by", ofStr "about", ofStr "as", ofStr "into",
   ofStr "through", ofStr "during", ofStr "before", ofStr "after",
   ofStr "above", ofStr "below", ofStr "between", ofStr "under", ofStr "over",
   ofStr "of", ofStr "off", ofStr "up", ofStr "down", ofStr "out",
   ofStr "and", ofStr "or", ofStr "but", ofStr "nor", ofStr "so", ofStr "yet",
   ofStr "if", ofStr "because", ofStr "while", ofStr "although",
   ofStr "though", ofStr "unless", ofStr "since", ofStr "until", ofStr "when",
   ofStr "where", ofStr "is", ofStr "am", ofStr "are", ofStr "was",
   ofStr "were", ofStr "be", ofStr "been", ofStr "being", ofStr "have",
   ofStr "has", ofStr "had", ofStr "having", ofStr "do", ofStr "does",
   ofStr "did", ofStr "doing", ofStr "will", ofStr "would", ofStr "shall",
   ofStr "should", ofStr "may", ofStr "might", ofStr "must", ofStr "can",
   ofStr "could", ofStr "get", ofStr "got", ofStr "getting", ofStr "make",
   ofStr "made", ofStr "making", ofStr "go", ofStr "went", ofStr "going",
   ofStr "gone", ofStr "come", ofStr "came", ofStr "coming", ofStr "take",
   ofStr "took", ofStr "taken", ofStr "taking", ofStr "see", ofStr "saw",
   ofStr "seen", ofStr "seeing", ofStr "know", ofStr "knew", ofStr "known",
   ofStr "knowing", ofStr "think", ofStr "thought", ofStr "thinking",
   ofStr "say", ofStr "said", ofStr "saying", ofStr "tell", ofStr "told",
   ofStr "telling", ofStr "give", ofStr "gave", ofStr "given", ofStr "giving",
   ofStr "find", ofStr "found", ofStr "finding", ofStr "use", ofStr "used",
   ofStr "using", ofStr "want", ofStr "wanted", ofStr "wanting", ofStr "work",
   ofStr "worked", ofStr "working", ofStr "call", ofStr "called",
   ofStr "calling", ofStr "try", ofStr "tried", ofStr "trying", ofStr "ask",
   ofStr "asked", ofStr "asking", ofStr "need", ofStr "needed",
   ofStr "needing", ofStr "feel", ofStr "felt", ofStr "feeling",
   ofStr "become", ofStr "became", ofStr "becoming", ofStr "leave",
   ofStr "left", ofStr "leaving", ofStr "put", ofStr "putting", ofStr "not",
   ofStr "no", ofStr "yes", ofStr "all", ofStr "any", ofStr "some",
   ofStr "many", ofStr "much", ofStr "more", ofStr "most", ofStr "few",
   ofStr "less", ofStr "least", ofStr "each", ofStr "every", ofStr "both",
   ofStr "either", ofStr "neither", ofStr "other", ofStr "another",
   ofStr "such", ofStr "same", ofStr "different", ofStr "very", ofStr "too",
   ofStr "quite", ofStr "rather", ofStr "just", ofStr "only", ofStr "even",
   ofStr "also", ofStr "still", ofStr "here", ofStr "there", ofStr "now",
   ofStr "then", ofStr "today", ofStr "tomorrow", ofStr "yesterday",
   ofStr "always", ofStr "never", ofStr "sometimes", ofStr "often",
   ofStr "usually", ofStr "seldom", ofStr "again", ofStr "back", ofStr "away",
   ofStr "around", ofStr "than", ofStr "then", ofStr "once", ofStr "twice",
   ofStr "one", ofStr "two", ofStr "first", ofStr "second", ofStr "last",
   ofStr "next", ofStr "new", ofStr "old", ofStr "good", ofStr "bad",
   ofStr "big", ofStr "small", ofStr "long", ofStr "short", ofStr "high",
   ofStr "low", ofStr "right", ofStr "left", ofStr "near", ofStr "far",
   ofStr "well", ofStr "better", ofStr "best", ofStr "worse", ofStr "worst",
   ofStr "own", ofStr "same", ofStr "sure", ofStr "certain", ofStr "however",
   ofStr "therefore", ofStr "thus", ofStr "hence", ofStr "moreover",
   ofStr "furthermore", ofStr "etc", ofStr "ie", ofStr "eg", ofStr "vs",
   ofStr "via"]

/-- `QUESTION_WORDS`: always retained. -/
def QUESTION_WORDS : List JsStr :=
  [ofStr "what", ofStr "when", ofStr "where", ofStr "which", ofStr "who",
   ofStr "whom", ofStr "whose", ofStr "why", ofStr "how"]

/-- `IMPORTANT_QUALIFIERS`: always retained. -/
def IMPORTANT_QUALIFIERS : List JsStr :=
  [ofStr "not", ofStr "never", ofStr "always", ofStr "only", ofStr "must",
   ofStr "should", ofStr "can", ofStr "cannot", ofStr "true", ofStr "false",
   ofStr "correct", ofStr "incorrect", ofStr "right", ofStr "wrong"]

/-- The `dateWords` set of `isDateRelated`. -/
def dateWords : List JsStr :=
  [ofStr "january", ofStr "february", ofStr "march", ofStr "april",
   ofStr "may", ofStr "june", ofStr "july", ofStr "august", ofStr "september",
   ofStr "october", ofStr "november", ofStr "december", ofStr "monday",
   ofStr "tuesday", ofStr "wednesday", ofStr "thursday", ofStr "friday",
   ofStr "saturday", ofStr "sunday", ofStr "today", ofStr "tomorrow",
   ofStr "yesterday", ofStr "year", ofStr "month", ofStr "week", ofStr "day"]

/-- `isStopword`: question words and important qualifiers are kept. -/
def isStopword (word : JsStr) : Bool :=
  if QUESTION_WORDS.contains word || IMPORTANT_QUALIFIERS.contains word then
    false
  else ENGLISH_STOPWORDS.contains word

/-- ASCII digit, the ECMAScript `\d` class. -/
def isDigitCode (c : Nat) : Bool :=
  48 ≤ c ∧ c ≤ 57

/-- `isNumber`: the anchored regexes `^\d+(\.\d+)?$` and
`^\d+(st|nd|rd|th)$`. Because neither optional suffix can begin with a
digit, the greedy `\d+` always consumes the maximal digit run, so taking
the maximal run is exact. -/
def isNumber (w : JsStr) : Bool :=
  let ds := w.takeWhile isDigitCode
  let rest := w.drop ds.length
  decide (ds ≠ []) &&
    (rest.isEmpty ||
      (match rest with
       | 46 :: frac => decide (frac ≠ []) && frac.all isDigitCode
       | _ => false) ||
      decide (rest = ofStr "st") || decide (rest = ofStr "nd") ||
      decide (rest = ofStr "rd") || decide (rest = ofStr "th"))

/-- `isDateRelated`: membership of the lower-cased word in `dateWords`. -/
def isDateRelated (w : JsStr) : Bool :=
  dateWords.contains (w.map jsToLower)

/-- `String.prototype.toUpperCase` on the ASCII repertoire, matching
`jsToLower`. -/
def jsToUpper (c : Nat) : Nat :=
  if 97 ≤ c ∧ c ≤ 122 then c - 32 else c

/-- Scan of `isProperNoun`'s search for `[^.!?]\s+word` (flag `i`): at each
start position the single character must not be `.`, `!` or `?`, the greedy
`\s+` consumes the maximal whitespace run (the word's first character is
never whitespace, so no backtracking succeeds), and `word` must match
case-insensitively right after. Returns the first code unit of the word
occurrence of the leftmost match. For the nonempty, whitespace-free words
the extractor supplies, that occurrence is exactly the last
whitespace-separated token of the trimmed match, which the source
inspects. -/
def properNounScan (word : JsStr) : JsStr → Option Nat
  | [] => none
  | c :: rest =>
    let sp := rest.takeWhile isSpaceCode
    let after := rest.drop sp.length
    if decide (c ≠ 46) && decide (c ≠ 33) && decide (c ≠ 63) &&
        decide (sp ≠ []) && matchesCI word after then
      after.head?
    else properNounScan word rest

/-- `isProperNoun`: the matched word's first character equals its own
upper-casing (i.e. it is not a lower-case letter). -/
def isProperNoun (word originalText : JsStr) : Bool :=
  match properNounScan word originalText with
  | some c0 => decide (c0 = jsToUpper c0)
  | none => false

/-- The class `[\d\-@#$%]` of `isTechnicalTerm`. -/
def hasTechChar (w : JsStr) : Bool :=
  w.any (fun c => isDigitCode c || c = 45 || c = 64 || c = 35 || c = 36 ||
    c = 37)

/-- The regex `[a-z][A-Z]` of `isTechnicalTerm`: some adjacent pair is a
lower-case ASCII letter followed by an upper-case one. -/
def hasLowerUpperPair : JsStr → Bool
  | a :: b :: rest =>
    ((97 ≤ a && a ≤ 122) && (65 ≤ b && b ≤ 90)) ||
      hasLowerUpperPair (b :: rest)
  | _ => false

/-- `isTechnicalTerm` (its `word` argument is unused in the source too). -/
def isTechnicalTerm (_word originalWord : JsStr) : Bool :=
  if hasTechChar originalWord then true
  else if decide (1 < originalWord.length) &&
      decide (originalWord.map jsToUpper = originalWord) then true
  else hasLowerUpperPair originalWord

/-- Maximum of the values of `wordFrequency`: the object built by the
`forEach` loop maps each distinct word (in first-occurrence order) to its
occurrence count, so `Object.values` is the counts of the deduplicated
words; all counts are at least 1, so folding `max` from 0 is
`Math.max(...values)` whenever `allWords` is nonempty (the only case the
extractor reaches). -/
def calcMaxFreq (allWords : List JsStr) : Nat :=
  ((jsSetDedup allWords).map (fun w => allWords.count w)).foldr max 0

/-- `calculateWordImportance`: `tf = freq[word]/allWords.length`,
`idf = log(maxFreq/(freq[word]+1))`, result `min(tf*idf*10, 1.0)`.
Lookups in `wordFrequency` are occurrence counts. -/
def calculateWordImportance (jsLog : ℚ → ℚ) (word : JsStr)
    (allWords : List JsStr) : ℚ :=
  min ((allWords.count word : ℚ) / (allWords.length : ℚ) *
    jsLog ((calcMaxFreq allWords : ℚ) / ((allWords.count word : ℚ) + 1)) *
    (10 : ℚ)) 1

/-- `Array.prototype.join(' ')`. -/
def joinSpace : List JsStr → JsStr
  | [] => []
  | [w] => w
  | w :: ws => w ++ 32 :: joinSpace ws

/-- `extractNGrams`: every window of `n` consecutive words, joined by a
space, kept when some window word is not a stop word. The source loop runs
`i` from 0 to `words.length - n`; here each suffix long enough to hold a
window contributes its first window. -/
def extractNGrams (n : Nat) : List JsStr → List JsStr
  | [] => []
  | w :: rest =>
    if n ≤ (w :: rest).length then
      (if ((w :: rest).take n).any (fun x => !(isStopword x)) then
        [joinSpace ((w :: rest).take n)]
      else []) ++ extractNGrams n rest
    else []

/-- `classifyKeywordType`. -/
def classifyKeywordType (word originalText originalWord : JsStr) :
    KeywordType :=
  if isStopword word then .stopword
  else if isTechnicalTerm word originalWord then .technical
  else if isProperNoun word originalText || isNumber word ||
      isDateRelated word then .entity
  else .common

/-- `String.prototype.split(/\s+/)`: segments between maximal whitespace
runs, including an empty segment for a leading or trailing run (and `[""]`
for the empty string). `none` means the scanner is inside a separator
run. -/
def jsSplitWsGo (acc : Option JsStr) : JsStr → List JsStr
  | [] =>
    (match acc with
     | some cur => [cur.reverse]
     | none => [[]])
  | c :: rest =>
    match acc with
    | some cur =>
      if isSpaceCode c then cur.reverse :: jsSplitWsGo none rest
      else jsSplitWsGo (some (c :: cur)) rest
    | none =>
      if isSpaceCode c then jsSplitWsGo none rest
      else jsSplitWsGo (some [c]) rest

/-- Entry point of the `split(/\s+/)` scanner. -/
def jsSplitWs (t : JsStr) : List JsStr := jsSplitWsGo (some []) t

/-- `String.prototype.split(sep)` for a one-character literal separator. -/
def jsSplitCharGo (sep : Nat) (cur : JsStr) : JsStr → List JsStr
  | [] => [cur.reverse]
  | c :: rest =>
    if c = sep then cur.reverse :: jsSplitCharGo sep [] rest
    else jsSplitCharGo sep (c :: cur) rest

/-- Entry point of the literal-separator split. -/
def jsSplitChar (sep : Nat) (t : JsStr) : List JsStr :=
  jsSplitCharGo sep [] t

/-- Options of `extractKeywords`, with the source defaults. -/
structure ExtractOptions where
  maxKeywords : Nat
  includePhrases : Bool
deriving DecidableEq, Repr

/-- The default options `maxKeywords = KEYWORD_CONFIG.MAX_KEYWORDS`,
`includePhrases = true`. -/
def defaultExtractOptions : ExtractOptions :=
  ⟨KEYWORD_CONFIG.MAX_KEYWORDS, true⟩

/-- `originalWords[index] || word`: an out-of-range index gives `undefined`
and the empty string is falsy, so both fall back to `word`. -/
def jsOriginalWord (originalWords : List JsStr) (idx : Nat) (word : JsStr) :
    JsStr :=
  match originalWords[idx]? with
  | some ow => if ow.isEmpty then word else ow
  | none => word

/-- Single-word pass of `extractKeywords`: skip stop words that are not
question words, skip words outside the length band, compute the
importance, skip below the threshold, classify and emit. -/
def singleKeywords (jsLog : ℚ → ℚ) (originalText : JsStr)
    (words originalWords : List JsStr) : List Keyword :=
  words.enum.filterMap (fun p =>
    if isStopword p.2 && !(QUESTION_WORDS.contains p.2) then none
    else if p.2.length < KEYWORD_CONFIG.MIN_KEYWORD_LENGTH ||
        KEYWORD_CONFIG.MAX_KEYWORD_LENGTH < p.2.length then none
    else if calculateWordImportance jsLog p.2 words <
        KEYWORD_CONFIG.IMPORTANCE_THRESHOLD then none
    else some ⟨p.2, calculateWordImportance jsLog p.2 words,
      classifyKeywordType p.2 originalText
        (jsOriginalWord originalWords p.1 p.2)⟩)

/-- Phrase importance: the average of the word importances over
`phrase.split(' ')`, boosted by 1.5 and capped at 1. -/
def phraseImportance (jsLog : ℚ → ℚ) (words : List JsStr)
    (phrase : JsStr) : ℚ :=
  min (((jsSplitChar 32 phrase).foldl
      (fun sum w => sum + calculateWordImportance jsLog w words) 0) /
    ((jsSplitChar 32 phrase).length : ℚ) * ((3 : ℚ)/2)) 1

/-- Phrase pass of `extractKeywords`: bigrams then trigrams, kept when the
boosted importance reaches the threshold, always with type `common`. -/
def phraseKeywordsOf (jsLog : ℚ → ℚ) (words : List JsStr) : List Keyword :=
  (extractNGrams 2 words ++ extractNGrams 3 words).filterMap (fun phrase =>
    if KEYWORD_CONFIG.IMPORTANCE_THRESHOLD ≤
        phraseImportance jsLog words phrase then
      some ⟨phrase, phraseImportance jsLog words phrase,
        KeywordType.common⟩
    else none)

/-- Stable insertion into a descending-by-importance list: the new element
goes after every earlier element of greater-or-equal importance. -/
def insertByImportance (kw : Keyword) : List Keyword → List Keyword
  | [] => [kw]
  | x :: rest =>
    if x.importance < kw.importance then kw :: x :: rest
    else x :: insertByImportance kw rest

/-- The sort `(a, b) => b.importance - a.importance`. The comparator is a
total preorder and the engine's `Array#sort` is stable, so its output is
uniquely determined; a stable insertion sort realises it. -/
def sortByImportanceDesc (l : List Keyword) : List Keyword :=
  l.foldl (fun acc kw => insertByImportance kw acc) []

/-- The dedup filter with the `seen` set: keep the first (highest-ranked)
keyword for each word. -/
def dedupByWordAux (seen : List JsStr) : List Keyword → List Keyword
  | [] => []
  | kw :: rest =>
    if seen.contains kw.word then dedupByWordAux seen rest
    else kw :: dedupByWordAux (kw.word :: seen) rest

/-- `extractKeywords(text, options)`: falsy guard, normalize for keywords,
tokenize and filter by minimum length, single-word and phrase passes,
stable descending sort, dedup, truncate to `maxKeywords`. -/
def extractKeywords (jsLog : ℚ → ℚ) (text : JsStr)
    (options : ExtractOptions) : List Keyword :=
  if text.isEmpty then []
  else
    let words := (jsSplitWs (normalizeForKeywords text)).filter
      (fun w => KEYWORD_CONFIG.MIN_KEYWORD_LENGTH ≤ w.length)
    if words.isEmpty then []
    else
      (dedupByWordAux []
        (sortByImportanceDesc
          (singleKeywords jsLog text words (jsSplitWs text) ++
            (if options.includePhrases then phraseKeywordsOf jsLog words
             else [])))).take options.maxKeywords

/-- Question words are never stop words: `isStopword` checks the protected
sets first. -/
lemma isStopword_false_of_questionWord {w : JsStr}
    (h : QUESTION_WORDS.contains w = true) : isStopword w = false := by
  unfold isStopword
  rw [h, Bool.true_or]
  exact if_pos rfl

/-- Word importance is capped at 1 by the final `Math.min`. -/
lemma calculateWordImportance_le_one (jsLog : ℚ → ℚ) (w : JsStr)
    (ws : List JsStr) : calculateWordImportance jsLog w ws ≤ 1 :=
  min_le_right _ _

/-- Phrase importance is capped at 1 by the final `Math.min`. -/
lemma phraseImportance_le_one (jsLog : ℚ → ℚ) (ws : List JsStr)
    (p : JsStr) : phraseImportance jsLog ws p ≤ 1 :=
  min_le_right _ _

/-- Insertion adds no new elements. -/
lemma mem_insertByImportance {x kw : Keyword} :
    ∀ {l : List Keyword}, x ∈ insertByImportance kw l → x = kw ∨ x ∈ l := by
  intro l
  induction l with
  | nil =>
    intro h
    exact Or.inl (by simpa [insertByImportance] using h)
  | cons a rest ih =>
    intro h
    unfold insertByImportance at h
    split at h
    · rcases List.mem_cons.1 h with h' | h'
      · exact Or.inl h'
      · exact Or.inr h'
    · rcases List.mem_cons.1 h with h' | h'
      · exact Or.inr (List.mem_cons.2 (Or.inl h'))
      · rcases ih h' with h'' | h''
        · exact Or.inl h''
        · exact Or.inr (List.mem_cons_of_mem _ h'')

/-- The sort permutes; membership only needs one direction. -/
lemma mem_sortByImportanceDesc {x : Keyword} {l : List Keyword}
    (h : x ∈ sortByImportanceDesc l) : x ∈ l := by
  have key : ∀ (l' acc : List Keyword),
      x ∈ l'.foldl (fun a k => insertByImportance k a) acc →
        x ∈ acc ∨ x ∈ l' := by
    intro l'
    induction l' with
    | nil => intro acc h'; exact Or.inl h'
    | cons a rest ih =>
      intro acc h'
      rcases ih _ h' with h'' | h''
      · rcases mem_insertByImportance h'' with h3 | h3
        · exact Or.inr (by rw [h3]; exact List.mem_cons_self a rest)
        · exact Or.inl h3
      · exact Or.inr (List.mem_cons_of_mem _ h'')
  rcases key l [] h with h' | h'
  · simp at h'
  · exact h'

/-- The dedup filter keeps a subset. -/
lemma mem_dedupByWordAux {x : Keyword} :
    ∀ {seen : List JsStr} {l : List Keyword},
      x ∈ dedupByWordAux seen l → x ∈ l := by
  intro seen l
  induction l generalizing seen with
  | nil => intro h; simp [dedupByWordAux] at h
  | cons a rest ih =>
    intro h
    unfold dedupByWordAux at h
    split at h
    · exact List.mem_cons_of_mem _ (ih h)
    · rcases List.mem_cons.1 h with h' | h'
      · exact List.mem_cons.2 (Or.inl h')
      · exact List.mem_cons_of_mem _ (ih h')

/-- Every n-gram with n at least 2 contains a space: the join inserts one
between the first two window words. -/
lemma space_mem_extractNGrams {n : Nat} (hn : 2 ≤ n) :
    ∀ {ws : List JsStr} {p : JsStr}, p ∈ extractNGrams n ws →
      (32 : Nat) ∈ p := by
  intro ws
  induction ws with
  | nil => intro p h; simp [extractNGrams] at h
  | cons w rest ih =>
    intro p h
    unfold extractNGrams at h
    split at h
    case isTrue hlen =>
      rcases List.mem_append.1 h with h' | h'
      · split at h'
        · have hp : p = joinSpace ((w :: rest).take n) := by simpa using h'
          have hl : 2 ≤ ((w :: rest).take n).length := by
            rw [List.length_take]
            omega
          rcases hwin : (w :: rest).take n with _ | ⟨a, tl⟩
          · rw [hwin] at hl; simp at hl
          · rcases tl with _ | ⟨b, t⟩
            · rw [hwin] at hl; simp at hl
            · rw [hwin] at hp
              rw [hp]
              simp [joinSpace]
        · simp at h'
      · exact ih h'
    case isFalse => simp at h

/-- Every keyword from the single-word pass clears the importance
threshold, is capped at 1, and is not a stop word. -/
lemma singleKeywords_props {jsLog : ℚ → ℚ} {oT : JsStr}
    {words oW : List JsStr} {kw : Keyword}
    (h : kw ∈ singleKeywords jsLog oT words oW) :
    (1 : ℚ)/10 ≤ kw.importance ∧ kw.importance ≤ 1 ∧
      isStopword kw.word = false := by
  unfold singleKeywords at h
  rcases List.mem_filterMap.1 h with ⟨p, _, hf⟩
  split at hf
  case isTrue => exact absurd hf (by simp)
  case isFalse h1 =>
    split at hf
    case isTrue => exact absurd hf (by simp)
    case isFalse h2 =>
      split at hf
      case isTrue => exact absurd hf (by simp)
      case isFalse h3 =>
        have hkw := Option.some.inj hf
        rw [← hkw]
        refine ⟨le_of_not_lt h3, calculateWordImportance_le_one _ _ _, ?_⟩
        simp only [Bool.and_eq_true, Bool.not_eq_true', not_and] at h1
        cases hsw : isStopword p.2 with
        | false => rfl
        | true =>
          have hq : QUESTION_WORDS.contains p.2 = true := by
            simpa using h1 hsw
          have hfalse := isStopword_false_of_questionWord hq
          rw [hsw] at hfalse
          exact Bool.noConfusion hfalse

/-- Every keyword from the phrase pass clears the importance threshold, is
capped at 1, and contains a space. -/
lemma phraseKeywordsOf_props {jsLog : ℚ → ℚ} {words : List JsStr}
    {kw : Keyword} (h : kw ∈ phraseKeywordsOf jsLog words) :
    (1 : ℚ)/10 ≤ kw.importance ∧ kw.importance ≤ 1 ∧
      (32 : Nat) ∈ kw.word := by
  unfold phraseKeywordsOf at h
  rcases List.mem_filterMap.1 h with ⟨phrase, hmem, hf⟩
  split at hf
  case isTrue hb =>
    have hkw := Option.some.inj hf
    rw [← hkw]
    refine ⟨hb, phraseImportance_le_one _ _ _, ?_⟩
    rcases List.mem_append.1 hmem with h' | h'
    · exact space_mem_extractNGrams (by omega) h'
    · exact space_mem_extractNGrams (by omega) h'
  case isFalse => exact absurd hf (by simp)

/-- C6: for every log function, input text and option set, every keyword
emitted by `extractKeywords` has importance in [0, 1], and every emitted
single-token keyword (one containing no space) is not a stop word: stop
words outside the protected question-word and qualifier sets never appear
as single-token output. -/
theorem extractKeywords_importance_and_stopwords
    (jsLog : ℚ → ℚ) (text : JsStr) (options : ExtractOptions)
    (kw : Keyword) (hkw : kw ∈ extractKeywords jsLog text options) :
    (0 ≤ kw.importance ∧ kw.importance ≤ 1) ∧
      (¬ (32 : Nat) ∈ kw.word → isStopword kw.word = false) := by
  unfold extractKeywords at hkw
  split at hkw
  · simp at hkw
  · dsimp only at hkw
    split at hkw
    · simp at hkw
    · have h1 := mem_dedupByWordAux (List.take_subset _ _ hkw)
      have h2 := mem_sortByImportanceDesc h1
      rcases List.mem_append.1 h2 with hs | hp
      · rcases singleKeywords_props hs with ⟨ha, hb, hc⟩
        exact ⟨⟨le_trans (by norm_num) ha, hb⟩, fun _ => hc⟩
      · split at hp
        · rcases phraseKeywordsOf_props hp with ⟨ha, hb, hc⟩
          exact ⟨⟨le_trans (by norm_num) ha, hb⟩, fun hno => absurd hc hno⟩
        · simp at hp

/-- Witness for C6 at a concrete input: the keyword "cats" extracted from
"cats dogs" with the constant log function. -/
theorem extractKeywords_importance_and_stopwords_witness :
    (0 ≤ (⟨ofStr "cats", 1, KeywordType.common⟩ : Keyword).importance ∧
        (⟨ofStr "cats", 1, KeywordType.common⟩ : Keyword).importance ≤ 1) ∧
      (¬ (32 : Nat) ∈ (⟨ofStr "cats", 1, KeywordType.common⟩ : Keyword).word →
        isStopword (⟨ofStr "cats", 1, KeywordType.common⟩ : Keyword).word
          = false) :=
  extractKeywords_importance_and_stopwords (fun _ => 1) (ofStr "cats dogs")
    ⟨50, true⟩ ⟨ofStr "cats", 1, KeywordType.common⟩ (by decide)

/- ====================================================================
   question-classifier.js (claim C7)

   Translated from src/unnamed/part_008. Regex testers are modelled by
   explicit scanners; every pattern word is an ASCII letter string, so
   the greedy quantifiers of the source patterns never need
   backtracking and the scanners are exact.
   ==================================================================== -/

/-- Scanning combinator: does `f` accept some suffix of the text? This is
unanchored regex search, trying every start position left to right. -/
def anySuffix (f : JsStr → Bool) : JsStr → Bool
  | [] => f []
  | c :: rest => f (c :: rest) || anySuffix f rest

/-- Does `t` start with the literal `lit` (exact code units)? -/
def startsWithLit (lit t : JsStr) : Bool :=
  decide (t.take lit.length = lit)

/-- `String.prototype.includes`. -/
def jsIncludes (needle hay : JsStr) : Bool :=
  anySuffix (startsWithLit needle) hay

/-- Matcher for a case-insensitive `w1\s+w2\s+...\s+wn` pattern at the
current position. The pattern words contain no whitespace, so the greedy
`\s+` always consumes the maximal whitespace run. -/
def wordsPatAt : List JsStr → JsStr → Bool
  | [], _ => true
  | [w], t => matchesCI w t
  | w :: ws, t =>
    matchesCI w t &&
      (decide (((t.drop w.length).takeWhile isSpaceCode) ≠ []) &&
        wordsPatAt ws ((t.drop w.length).dropWhile isSpaceCode))

/-- Consume a `w1\s+...\s+wn` match at the current position, returning the
remaining text after the last word. -/
def wordsPatConsume : List JsStr → JsStr → Option JsStr
  | [], t => some t
  | [w], t => if matchesCI w t then some (t.drop w.length) else none
  | w :: ws, t =>
    if matchesCI w t then
      (if ((t.drop w.length).takeWhile isSpaceCode).isEmpty then none
       else wordsPatConsume ws ((t.drop w.length).dropWhile isSpaceCode))
    else none

/-- ECMAScript LineTerminator code points, which `.` does not match. -/
def isLineTermCode (c : Nat) : Bool :=
  c = 10 ∨ c = 13 ∨ c = 0x2028 ∨ c = 0x2029

/-- All split points of `.*` before a matcher `f`: match `f` here, or
consume one non-line-terminator character and continue. -/
def dotStarThen (f : JsStr → Bool) : JsStr → Bool
  | [] => f []
  | c :: rest => f (c :: rest) || (!(isLineTermCode c) && dotStarThen f rest)

/-- Unanchored search for a `\s+`-separated word sequence (flag `i`). -/
def testWordSeq (pat : List JsStr) (t : JsStr) : Bool :=
  anySuffix (wordsPatAt pat) t

/-- Anchored search (`^`, no `m` flag) for a word sequence. -/
def testWordSeqStart (pat : List JsStr) (t : JsStr) : Bool :=
  wordsPatAt pat t

/-- Unanchored search for `pre.*post` with word sequences on both sides. -/
def testDotStarSeq (pre post : List JsStr) (t : JsStr) : Bool :=
  anySuffix (fun s =>
    match wordsPatConsume pre s with
    | some rem => dotStarThen (wordsPatAt post) rem
    | none => false) t

/-- The class `[a-d]` under the `i` flag. -/
def isAtoD (c : Nat) : Bool :=
  (97 ≤ c ∧ c ≤ 100) ∨ (65 ≤ c ∧ c ≤ 68)

/-- First alternative `\b[a-d]\)` of the MCQ option-marker pattern: the
option letter is a word character, so the boundary holds exactly when the
previous character (tracked in `prev`) is not one. -/
def mcqBoundScan (prev : Option Nat) : JsStr → Bool
  | [] => false
  | c :: rest =>
    (!(wordAt prev) && isAtoD c && decide (rest.head? = some 41)) ||
      mcqBoundScan (some c) rest

/-- Second alternative `^\s*[a-d][\.\)]` at one line start: skip the
maximal whitespace run, then an option letter and a dot or closing
parenthesis. -/
def mcqLineStartCheck (t : JsStr) : Bool :=
  match t.dropWhile isSpaceCode with
  | c1 :: c2 :: _ => isAtoD c1 && (c2 = 46 ∨ c2 = 41)
  | _ => false

/-- With the `m` flag, `^` also matches after every line terminator. -/
def mcqAfterLineStarts : JsStr → Bool
  | [] => false
  | c :: rest =>
    (isLineTermCode c && mcqLineStartCheck rest) || mcqAfterLineStarts rest

/-- The pattern `\b[a-d]\)|^\s*[a-d][\.\)]` with flags `im`. -/
def mcqOptionMarkerTest (t : JsStr) : Bool :=
  mcqBoundScan none t || mcqLineStartCheck t || mcqAfterLineStarts t

/-- The pattern `option\s*[a-d]` (flag `i`) at the current position: the
6-letter literal, the maximal (possibly empty) whitespace run, an option
letter. -/
def optionLetterAt (t : JsStr) : Bool :=
  matchesCI (ofStr "option") t &&
    (match ((t.drop 6).dropWhile isSpaceCode).head? with
     | some c => isAtoD c
     | none => false)

/-- Unanchored search for `option\s*[a-d]`. -/
def optionLetterTest (t : JsStr) : Bool :=
  anySuffix optionLetterAt t

/-- `MCQ_PATTERNS`, in source order. -/
def MCQ_PATTERNS : List (JsStr → Bool) :=
  [testWordSeq [ofStr "which", ofStr "of", ofStr "the", ofStr "following"],
   testWordSeq [ofStr "select", ofStr "the", ofStr "correct"],
   testWordSeq [ofStr "choose", ofStr "the", ofStr "correct"],
   testWordSeq [ofStr "pick", ofStr "the", ofStr "correct"],
   testWordSeq [ofStr "identify", ofStr "the", ofStr "correct"],
   testWordSeq [ofStr "what", ofStr "is", ofStr "the", ofStr "correct"],
   testWordSeq [ofStr "multiple", ofStr "choice"],
   mcqOptionMarkerTest,
   optionLetterTest]

/-- `MCQ_KEYWORDS`. -/
def MCQ_KEYWORDS : List JsStr :=
  [ofStr "following", ofStr "options", ofStr "choices",
   ofStr "alternatives", ofStr "select", ofStr "choose", ofStr "pick"]

/-- `TRUE_FALSE_PATTERNS`. -/
def TRUE_FALSE_PATTERNS : List (JsStr → Bool) :=
  [testWordSeq [ofStr "true", ofStr "or", ofStr "false"],
   testWordSeq [ofStr "is", ofStr "it", ofStr "true", ofStr "that"],
   testWordSeq [ofStr "is", ofStr "this", ofStr "statement", ofStr "true"],
   testDotStarSeq [ofStr "state", ofStr "whether"]
     [ofStr "true", ofStr "or", ofStr "false"],
   testDotStarSeq [ofStr "determine", ofStr "if"]
     [ofStr "true", ofStr "or", ofStr "false"]]

/-- `TRUE_FALSE_KEYWORDS`. -/
def TRUE_FALSE_KEYWORDS : List JsStr :=
  [ofStr "true", ofStr "false", ofStr "correct", ofStr "incorrect",
   ofStr "right", ofStr "wrong"]

/-- `FILL_BLANK_PATTERNS`: `/_+/` holds exactly when some underscore is
present. -/
def FILL_BLANK_PATTERNS : List (JsStr → Bool) :=
  [fun t => t.any (fun c => c = 95),
   fun t => anySuffix (matchesCI (ofStr "[blank]")) t,
   fun t => anySuffix (startsWithLit (ofStr "[___]")) t,
   testWordSeq [ofStr "fill", ofStr "in", ofStr "the", ofStr "blank"],
   testWordSeq [ofStr "complete", ofStr "the", ofStr "sentence"],
   testWordSeq [ofStr "complete", ofStr "the", ofStr "following"]]

/-- `FILL_BLANK_KEYWORDS`. -/
def FILL_BLANK_KEYWORDS : List JsStr :=
  [ofStr "fill", ofStr "blank", ofStr "complete", ofStr "missing"]

/-- `SHORT_ANSWER_PATTERNS`. -/
def SHORT_ANSWER_PATTERNS : List (JsStr → Bool) :=
  [testWordSeqStart [ofStr "what", ofStr "is"],
   testWordSeqStart [ofStr "what", ofStr "are"],
   testWordSeqStart [ofStr "define"],
   testWordSeqStart [ofStr "list"],
   testWordSeqStart [ofStr "name"],
   testWordSeqStart [ofStr "identify"],
   testWordSeqStart [ofStr "state"],
   testWordSeqStart [ofStr "give"],
   testWordSeqStart [ofStr "mention"],
   testWordSeqStart [ofStr "write", ofStr "the", ofStr "name"],
   testWordSeq [ofStr "in", ofStr "one", ofStr "word"],
   testWordSeq [ofStr "in", ofStr "brief"],
   testWordSeq [ofStr "briefly"]]

/-- `SHORT_ANSWER_KEYWORDS`. -/
def SHORT_ANSWER_KEYWORDS : List JsStr :=
  [ofStr "what", ofStr "define", ofStr "list", ofStr "name",
   ofStr "identify", ofStr "state", ofStr "mention", ofStr "briefly"]

/-- `ESSAY_PATTERNS`. -/
def ESSAY_PATTERNS : List (JsStr → Bool) :=
  [testWordSeqStart [ofStr "explain"],
   testWordSeqStart [ofStr "describe"],
   testWordSeqStart [ofStr "discuss"],
   testWordSeqStart [ofStr "analyze"],
   testWordSeqStart [ofStr "analyse"],
   testWordSeqStart [ofStr "compare", ofStr "and", ofStr "contrast"],
   testWordSeqStart [ofStr "evaluate"],
   testWordSeqStart [ofStr "justify"],
   testWordSeqStart [ofStr "elaborate"],
   testWordSeqStart [ofStr "illustrate"],
   testWordSeq [ofStr "in", ofStr "detail"],
   testWordSeq [ofStr "with", ofStr "examples"],
   testWordSeq [ofStr "write", ofStr "an", ofStr "essay"],
   testWordSeq [ofStr "write", ofStr "a", ofStr "note"]]

/-- `ESSAY_KEYWORDS`. -/
def ESSAY_KEYWORDS : List JsStr :=
  [ofStr "explain", ofStr "describe", ofStr "discuss", ofStr "analyze",
   ofStr "analyse", ofStr "compare", ofStr "contrast", ofStr "evaluate",
   ofStr "justify", ofStr "elaborate", ofStr "illustrate", ofStr "detail",
   ofStr "essay"]

/-- `countPatternMatches`: a reduce adding 1 per succeeding pattern
test. -/
def countPatternMatches (text : JsStr)
    (pats : List (JsStr → Bool)) : Nat :=
  pats.foldl (fun count pat => count + (if pat text then 1 else 0)) 0

/-- `countKeywordMatches`: lower-case the text, then count `includes`
hits. -/
def countKeywordMatches (text : JsStr) (keywords : List JsStr) : Nat :=
  keywords.foldl
    (fun count k =>
      count + (if jsIncludes k (text.map jsToLower) then 1 else 0)) 0

/-- `calculateTypeConfidence`: pattern and keyword ratios weighted 0.7 and
0.3, capped at 1. -/
def calculateTypeConfidence (pm km tp tk : ℚ) : ℚ :=
  min ((if 0 < tp then pm / tp else 0) * ((7 : ℚ)/10) +
    (if 0 < tk then km / tk else 0) * ((3 : ℚ)/10)) 1

/-- The five per-type confidences of `classifyQuestion`, in the object's
insertion order mcq, true_false, fill_blank, short_answer, essay (the
order `Object.entries` iterates). -/
def typeConfidences (text : JsStr) : List (QuestionType × ℚ) :=
  [(QuestionType.mcq, calculateTypeConfidence
      (countPatternMatches text MCQ_PATTERNS : ℚ)
      (countKeywordMatches text MCQ_KEYWORDS : ℚ)
      (MCQ_PATTERNS.length : ℚ) (MCQ_KEYWORDS.length : ℚ)),
   (QuestionType.true_false, calculateTypeConfidence
      (countPatternMatches text TRUE_FALSE_PATTERNS : ℚ)
      (countKeywordMatches text TRUE_FALSE_KEYWORDS : ℚ)
      (TRUE_FALSE_PATTERNS.length : ℚ) (TRUE_FALSE_KEYWORDS.length : ℚ)),
   (QuestionType.fill_blank, calculateTypeConfidence
      (countPatternMatches text FILL_BLANK_PATTERNS : ℚ)
      (countKeywordMatches text FILL_BLANK_KEYWORDS : ℚ)
      (FILL_BLANK_PATTERNS.length : ℚ) (FILL_BLANK_KEYWORDS.length : ℚ)),
   (QuestionType.short_answer, calculateTypeConfidence
      (countPatternMatches text SHORT_ANSWER_PATTERNS : ℚ)
      (countKeywordMatches text SHORT_ANSWER_KEYWORDS : ℚ)
      (SHORT_ANSWER_PATTERNS.length : ℚ)
      (SHORT_ANSWER_KEYWORDS.length : ℚ)),
   (QuestionType.essay, calculateTypeConfidence
      (countPatternMatches text ESSAY_PATTERNS : ℚ)
      (countKeywordMatches text ESSAY_KEYWORDS : ℚ)
      (ESSAY_PATTERNS.length : ℚ) (ESSAY_KEYWORDS.length : ℚ))]

/-- `classifyQuestion`: falsy guard, trim, per-type confidences, the
strict-improvement loop starting from (unknown, 0), and the 0.1 floor. -/
def classifyQuestion (questionText : JsStr) : QuestionType × ℚ :=
  if questionText.isEmpty then (QuestionType.unknown, 0)
  else
    let cs := typeConfidences (jsTrim questionText)
    let r := cs.foldl (fun best p => if best.2 < p.2 then p else best)
      (QuestionType.unknown, 0)
    if r.2 < (1 : ℚ)/10 then (QuestionType.unknown, 0) else r

/-- Modelled from the spec: confidence per type is
0.7 x (matched patterns / total patterns) +
0.3 x (matched keywords / total keywords). -/
def specTypeConfidence (pm km tp tk : ℚ) : ℚ :=
  ((7 : ℚ)/10) * (pm / tp) + ((3 : ℚ)/10) * (km / tk)

/-- Modelled from the spec: the confidences in the stated priority order
MCQ > true/false > fill-blank > short-answer > essay. -/
def specConfidences (text : JsStr) : List (QuestionType × ℚ) :=
  [(QuestionType.mcq, specTypeConfidence
      (countPatternMatches text MCQ_PATTERNS : ℚ)
      (countKeywordMatches text MCQ_KEYWORDS : ℚ)
      (MCQ_PATTERNS.length : ℚ) (MCQ_KEYWORDS.length : ℚ)),
   (QuestionType.true_false, specTypeConfidence
      (countPatternMatches text TRUE_FALSE_PATTERNS : ℚ)
      (countKeywordMatches text TRUE_FALSE_KEYWORDS : ℚ)
      (TRUE_FALSE_PATTERNS.length : ℚ) (TRUE_FALSE_KEYWORDS.length : ℚ)),
   (QuestionType.fill_blank, specTypeConfidence
      (countPatternMatches text FILL_BLANK_PATTERNS : ℚ)
      (countKeywordMatches text FILL_BLANK_KEYWORDS : ℚ)
      (FILL_BLANK_PATTERNS.length : ℚ) (FILL_BLANK_KEYWORDS.length : ℚ)),
   (QuestionType.short_answer, specTypeConfidence
      (countPatternMatches text SHORT_ANSWER_PATTERNS : ℚ)
      (countKeywordMatches text SHORT_ANSWER_KEYWORDS : ℚ)
      (SHORT_ANSWER_PATTERNS.length : ℚ)
      (SHORT_ANSWER_KEYWORDS.length : ℚ)),
   (QuestionType.essay, specTypeConfidence
      (countPatternMatches text ESSAY_PATTERNS : ℚ)
      (countKeywordMatches text ESSAY_KEYWORDS : ℚ)
      (ESSAY_PATTERNS.length : ℚ) (ESSAY_KEYWORDS.length : ℚ))]

/-- The maximal confidence of a list of typed confidences. -/
def maxConfOf (l : List (QuestionType × ℚ)) : ℚ :=
  (l.map Prod.snd).foldr max 0

/-- Modelled from the spec: pick the first type (in priority order)
attaining the maximal confidence; if the maximum is below the fixed floor
0.1, return unknown with confidence 0. -/
def classifySpec (questionText : JsStr) : QuestionType × ℚ :=
  if questionText.isEmpty then (QuestionType.unknown, 0)
  else
    let cs := specConfidences (jsTrim questionText)
    if maxConfOf cs < (1 : ℚ)/10 then (QuestionType.unknown, 0)
    else (cs.find? (fun p => decide (p.2 = maxConfOf cs))).getD
      (QuestionType.unknown, 0)

/-- A reduce of indicator increments is bounded by the list length. -/
lemma countPatternMatches_le (text : JsStr) (ps : List (JsStr → Bool)) :
    countPatternMatches text ps ≤ ps.length := by
  have key : ∀ (l : List (JsStr → Bool)) (acc : Nat),
      l.foldl (fun count pat => count + (if pat text then 1 else 0)) acc ≤
        acc + l.length := by
    intro l
    induction l with
    | nil => intro acc; simp
    | cons q l ih =>
      intro acc
      simp only [List.foldl_cons, List.length_cons]
      by_cases hq : q text
      · rw [if_pos hq]
        exact le_trans (ih (acc + 1)) (by omega)
      · rw [if_neg hq]
        exact le_trans (ih (acc + 0)) (by omega)
  simpa using key ps 0

/-- The keyword count is bounded by the keyword-list length. -/
lemma countKeywordMatches_le (text : JsStr) (ks : List JsStr) :
    countKeywordMatches text ks ≤ ks.length := by
  have key : ∀ (l : List JsStr) (acc : Nat),
      l.foldl
          (fun count k =>
            count + (if jsIncludes k (text.map jsToLower) then 1 else 0))
          acc ≤ acc + l.length := by
    intro l
    induction l with
    | nil => intro acc; simp
    | cons q l ih =>
      intro acc
      simp only [List.foldl_cons, List.length_cons]
      by_cases hq : jsIncludes q (text.map jsToLower)
      · rw [if_pos hq]
        exact le_trans (ih (acc + 1)) (by omega)
      · rw [if_neg hq]
        exact le_trans (ih (acc + 0)) (by omega)
  simpa using key ks 0

/-- With positive totals and counts bounded by the totals, the code's
capped confidence equals the spec's uncapped formula: the cap at 1 never
binds. -/
lemma calculateTypeConfidence_eq_spec (pm km tp tk : Nat)
    (hp : 0 < tp) (hk : 0 < tk) (hpm : pm ≤ tp) (hkm : km ≤ tk) :
    calculateTypeConfidence (pm : ℚ) (km : ℚ) (tp : ℚ) (tk : ℚ)
      = specTypeConfidence (pm : ℚ) (km : ℚ) (tp : ℚ) (tk : ℚ) := by
  have hpQ : (0 : ℚ) < (tp : ℚ) := by exact_mod_cast hp
  have hkQ : (0 : ℚ) < (tk : ℚ) := by exact_mod_cast hk
  have h1 : (pm : ℚ) / (tp : ℚ) ≤ 1 := by
    rw [div_le_one hpQ]; exact_mod_cast hpm
  have h2 : (km : ℚ) / (tk : ℚ) ≤ 1 := by
    rw [div_le_one hkQ]; exact_mod_cast hkm
  unfold calculateTypeConfidence specTypeConfidence
  rw [if_pos hpQ, if_pos hkQ]
  rw [min_eq_left (by linarith)]
  ring

/-- The five concrete confidences agree with the spec's formula. -/
lemma typeConfidences_eq_spec (text : JsStr) :
    typeConfidences text = specConfidences text := by
  unfold typeConfidences specConfidences
  rw [calculateTypeConfidence_eq_spec _ _ _ _ (by decide) (by decide)
      (countPatternMatches_le _ _) (countKeywordMatches_le _ _),
    calculateTypeConfidence_eq_spec _ _ _ _ (by decide) (by decide)
      (countPatternMatches_le _ _) (countKeywordMatches_le _ _),
    calculateTypeConfidence_eq_spec _ _ _ _ (by decide) (by decide)
      (countPatternMatches_le _ _) (countKeywordMatches_le _ _),
    calculateTypeConfidence_eq_spec _ _ _ _ (by decide) (by decide)
      (countPatternMatches_le _ _) (countKeywordMatches_le _ _),
    calculateTypeConfidence_eq_spec _ _ _ _ (by decide) (by decide)
      (countPatternMatches_le _ _) (countKeywordMatches_le _ _)]

/-- Unfolding equation for the confidence maximum. -/
lemma maxConfOf_cons (a : QuestionType × ℚ) (l : List (QuestionType × ℚ)) :
    maxConfOf (a :: l) = max a.2 (maxConfOf l) := rfl

/-- Every listed confidence is bounded by the maximum. -/
lemma le_maxConfOf : ∀ {l : List (QuestionType × ℚ)} {p : QuestionType × ℚ},
    p ∈ l → p.2 ≤ maxConfOf l := by
  intro l
  induction l with
  | nil => intro p h; simp at h
  | cons a l ih =>
    intro p h
    rw [maxConfOf_cons]
    rcases List.mem_cons.1 h with h | h
    · rw [h]; exact le_max_left _ _
    · exact le_trans (ih h) (le_max_right _ _)

/-- The confidence maximum is attained on a nonempty list of nonnegative
confidences. -/
lemma maxConfOf_attained : ∀ {l : List (QuestionType × ℚ)},
    (∀ p ∈ l, 0 ≤ p.2) → l ≠ [] → ∃ p ∈ l, p.2 = maxConfOf l := by
  intro l
  induction l with
  | nil => intro _ h; exact absurd rfl h
  | cons a l ih =>
    intro hnn _
    by_cases hl : l = []
    · subst hl
      refine ⟨a, List.mem_cons_self a [], ?_⟩
      have h0 : maxConfOf ([] : List (QuestionType × ℚ)) = 0 := rfl
      rw [maxConfOf_cons, h0, max_eq_left (hnn a (List.mem_cons_self a []))]
    · by_cases hc : maxConfOf l ≤ a.2
      · exact ⟨a, List.mem_cons_self a l,
          by rw [maxConfOf_cons, max_eq_left hc]⟩
      · obtain ⟨p, hp, he⟩ :=
          ih (fun p hp => hnn p (List.mem_cons_of_mem _ hp)) hl
        refine ⟨p, List.mem_cons_of_mem _ hp, ?_⟩
        rw [maxConfOf_cons, max_eq_right (le_of_lt (lt_of_not_le hc))]
        exact he

/-- The strict-improvement loop never moves off an accumulator that
already dominates the list. -/
lemma foldStep_const :
    ∀ (l : List (QuestionType × ℚ)) (b : QuestionType × ℚ),
      (∀ p ∈ l, p.2 ≤ b.2) →
      l.foldl (fun best p => if best.2 < p.2 then p else best) b = b := by
  intro l
  induction l with
  | nil => intro b _; rfl
  | cons a l ih =>
    intro b h
    simp only [List.foldl_cons]
    rw [if_neg (not_lt.2 (h a (List.mem_cons_self a l)))]
    exact ih b (fun p hp => h p (List.mem_cons_of_mem _ hp))

/-- The loop result is the accumulator or a list element. -/
lemma foldStep_mem :
    ∀ (l : List (QuestionType × ℚ)) (b : QuestionType × ℚ),
      l.foldl (fun best p => if best.2 < p.2 then p else best) b = b ∨
        l.foldl (fun best p => if best.2 < p.2 then p else best) b ∈ l := by
  intro l
  induction l with
  | nil => intro b; exact Or.inl rfl
  | cons a l ih =>
    intro b
    simp only [List.foldl_cons]
    by_cases hba : b.2 < a.2
    · rw [if_pos hba]
      rcases ih a with h | h
      · exact Or.inr (by rw [h]; exact List.mem_cons_self a l)
      · exact Or.inr (List.mem_cons_of_mem _ h)
    · rw [if_neg hba]
      rcases ih b with h | h
      · exact Or.inl h
      · exact Or.inr (List.mem_cons_of_mem _ h)

/-- When some confidence strictly beats the accumulator, the loop returns
the first element attaining the maximum. -/
lemma foldStep_eq_findMax :
    ∀ (l : List (QuestionType × ℚ)) (b : QuestionType × ℚ),
      (∀ p ∈ l, 0 ≤ p.2) → b.2 < maxConfOf l →
      l.foldl (fun best p => if best.2 < p.2 then p else best) b
        = (l.find? (fun p => decide (p.2 = maxConfOf l))).getD b := by
  intro l
  induction l with
  | nil => intro b _ _; rfl
  | cons a l ih =>
    intro b hnn hb
    by_cases hal : maxConfOf l ≤ a.2
    · have haM : a.2 = maxConfOf (a :: l) := by
        rw [maxConfOf_cons, max_eq_left hal]
      have hba : b.2 < a.2 := by rw [haM]; exact hb
      rw [List.find?_cons_of_pos _
        (by simp only [decide_eq_true_eq]; exact haM)]
      simp only [List.foldl_cons, if_pos hba, Option.getD_some]
      exact foldStep_const l a
        (fun p hp => le_trans (le_maxConfOf hp) hal)
    · push_neg at hal
      have hMl : maxConfOf (a :: l) = maxConfOf l := by
        rw [maxConfOf_cons, max_eq_right (le_of_lt hal)]
      rw [List.find?_cons_of_neg _
        (by simp only [decide_eq_true_eq]; rw [hMl]; exact ne_of_lt hal)]
      have hlne : l ≠ [] := by
        intro h0
        rw [h0] at hal
        have h00 : maxConfOf ([] : List (QuestionType × ℚ)) = 0 := rfl
        rw [h00] at hal
        exact absurd hal (not_lt.2 (hnn a (List.mem_cons_self a l)))
      have hnn' : ∀ p ∈ l, 0 ≤ p.2 :=
        fun p hp => hnn p (List.mem_cons_of_mem _ hp)
      obtain ⟨q, hq⟩ : ∃ q, l.find? (fun p => decide (p.2 = maxConfOf l))
          = some q := by
        obtain ⟨p, hp, hpe⟩ := maxConfOf_attained hnn' hlne
        have hs : (l.find? (fun p => decide (p.2 = maxConfOf l))).isSome := by
          rw [List.find?_isSome]
          exact ⟨p, hp, by simp [hpe]⟩
        exact Option.isSome_iff_exists.1 hs
      simp only [List.foldl_cons]
      by_cases hba : b.2 < a.2
      · rw [if_pos hba]
        have hrec := ih a hnn' hal
        rw [hMl, hrec, hq]
        rfl
      · rw [if_neg hba]
        have hrec := ih b hnn' (by rw [hMl] at hb; exact hb)
        rw [hMl, hrec]

/-- The loop followed by the 0.1 floor equals the spec's
first-maximum-then-floor selection, for nonnegative confidences. -/
lemma loop_floor_eq_spec (l : List (QuestionType × ℚ))
    (hnn : ∀ p ∈ l, 0 ≤ p.2) :
    (if (l.foldl (fun best p => if best.2 < p.2 then p else best)
          ((QuestionType.unknown, 0) : QuestionType × ℚ)).2 < (1 : ℚ)/10
      then ((QuestionType.unknown, 0) : QuestionType × ℚ)
      else l.foldl (fun best p => if best.2 < p.2 then p else best)
        ((QuestionType.unknown, 0) : QuestionType × ℚ))
    = (if maxConfOf l < (1 : ℚ)/10
       then ((QuestionType.unknown, 0) : QuestionType × ℚ)
       else (l.find? (fun p => decide (p.2 = maxConfOf l))).getD
         ((QuestionType.unknown, 0) : QuestionType × ℚ)) := by
  by_cases hM : maxConfOf l < (1 : ℚ)/10
  · rw [if_pos hM]
    rcases foldStep_mem l ((QuestionType.unknown, 0) : QuestionType × ℚ)
      with h | h
    · rw [h, if_pos (show ((QuestionType.unknown, (0 : ℚ)) :
        QuestionType × ℚ).2 < (1 : ℚ)/10 by norm_num)]
    · rw [if_pos (lt_of_le_of_lt (le_maxConfOf h) hM)]
  · rw [if_neg hM]
    have hpos : ((QuestionType.unknown, 0) : QuestionType × ℚ).2 <
        maxConfOf l :=
      lt_of_lt_of_le (by norm_num) (not_lt.1 hM)
    rw [foldStep_eq_findMax l _ hnn hpos]
    have hlne : l ≠ [] := by
      intro h0
      rw [h0] at hM
      have h00 : maxConfOf ([] : List (QuestionType × ℚ)) = 0 := rfl
      rw [h00] at hM
      exact hM (by norm_num)
    obtain ⟨q, hq⟩ : ∃ q, l.find? (fun p => decide (p.2 = maxConfOf l))
        = some q := by
      obtain ⟨p, hp, hpe⟩ := maxConfOf_attained hnn hlne
      have hs : (l.find? (fun p => decide (p.2 = maxConfOf l))).isSome := by
        rw [List.find?_isSome]
        exact ⟨p, hp, by simp [hpe]⟩
      exact Option.isSome_iff_exists.1 hs
    have hq2 : q.2 = maxConfOf l := by
      have := List.find?_some hq
      simpa using this
    rw [hq]
    simp only [Option.getD_some]
    rw [if_neg (by rw [hq2]; exact hM)]

/-- C7: `classifyQuestion` agrees everywhere with the specification
function: each type's confidence is 0.7 x (matched patterns / total
patterns) + 0.3 x (matched keywords / total keywords), the
highest-confidence type is returned with ties resolved to the first type
in the priority order MCQ, true/false, fill-blank, short-answer, essay,
and a maximum below the 0.1 floor yields unknown with confidence 0. -/
theorem classifyQuestion_matches_spec (questionText : JsStr) :
    classifyQuestion questionText = classifySpec questionText := by
  unfold classifyQuestion classifySpec
  by_cases hemp : questionText.isEmpty
  · rw [if_pos hemp, if_pos hemp]
  · rw [if_neg hemp, if_neg hemp]
    dsimp only
    rw [typeConfidences_eq_spec]
    have hnn : ∀ p ∈ specConfidences (jsTrim questionText), 0 ≤ p.2 := by
      intro p hp
      simp only [specConfidences, List.mem_cons, List.not_mem_nil,
        or_false] at hp
      rcases hp with rfl | rfl | rfl | rfl | rfl
      all_goals
        dsimp only
        unfold specTypeConfidence
        positivity
    exact loop_floor_eq_spec _ hnn

/- ====================================================================
   string-utils.js, the tier matchers, and matching-engine.js
   (claims C3 and C9)

   Translated from src/lib/utils/string-utils.js,
   src/unnamed/part_006 (exact-matcher), src/lib/matching/fuzzy-matcher.js,
   src/lib/matching/partial-matcher.js and src/unnamed/part_004
   (matching-engine). Asynchronous collaborators (IndexedDB, the AI
   service, Web Crypto hashing) are an explicit environment record.
   ==================================================================== -/

/-- Inner cells of one row of the `levenshteinDistance` matrix: walk the
previous row carrying the up-left (`diag`) and left neighbours. -/
def levGo (c1 : Nat) : JsStr → List Nat → Nat → Nat → List Nat
  | [], _, _, _ => []
  | _ :: _, [], _, _ => []
  | c2 :: rest, up :: prRest, diag, left =>
    let v := min (up + 1) (min (left + 1) (diag + (if c1 = c2 then 0 else 1)))
    v :: levGo c1 rest prRest up v

/-- Row `i` of the matrix from row `i - 1`; column 0 holds `i`. -/
def levRow (c1 : Nat) (s2 : JsStr) (prevRow : List Nat) (i : Nat) :
    List Nat :=
  i :: levGo c1 s2 (prevRow.drop 1) (prevRow.headD 0) i

/-- `levenshteinDistance`: the standard dynamic program, row by row; the
answer is the last cell of the last row. -/
def levenshteinDistance (s1 s2 : JsStr) : Nat :=
  ((s1.foldl (fun (acc : List Nat × Nat) c1 =>
      (levRow c1 s2 acc.1 (acc.2 + 1), acc.2 + 1))
    (List.range (s2.length + 1), 0)).1).getLastD 0

/-- `levenshteinSimilarity`. -/
def levenshteinSimilarity (s1 s2 : JsStr) : ℚ :=
  if s1 = s2 then 1
  else if s1.length = 0 ∨ s2.length = 0 then 0
  else 1 - ((levenshteinDistance s1 s2 : ℚ) / ((max s1.length s2.length : Nat) : ℚ))

/-- Inner scan of the Jaro match loop: the first unmatched position of
`s2` in `[start, start + fuel)` holding character `c`. -/
def jwFind (c : Nat) (s2 : JsStr) (m2 : List Bool) (start : Nat) :
    Nat → Option Nat
  | 0 => none
  | fuel + 1 =>
    if m2.getD start false = false ∧ s2.getD start 0 = c then some start
    else jwFind c s2 m2 (start + 1) fuel

/-- The Jaro match loop over `s1`: returns the match flags of `s1` in
order, the final match flags of `s2`, and the match count. The window
bound `Math.floor(max/2) - 1` can be -1 (then every window is empty), so
it is an integer. -/
def jwMatchLoop (s2 : JsStr) (mwI : Int) :
    List Nat → Nat → List Bool → List Bool × List Bool × Nat
  | [], _, m2 => ([], m2, 0)
  | c :: rest, i, m2 =>
    let start := (max 0 ((i : Int) - mwI)).toNat
    let fuel := (min ((i : Int) + mwI + 1) (s2.length : Int)).toNat - start
    match jwFind c s2 m2 start fuel with
    | some j =>
      let r := jwMatchLoop s2 mwI rest (i + 1) (m2.set j true)
      (true :: r.1, r.2.1, r.2.2 + 1)
    | none =>
      let r := jwMatchLoop s2 mwI rest (i + 1) m2
      (false :: r.1, r.2.1, r.2.2)

/-- The `while (!str2Matches[k]) k++` scan, with fuel. -/
def nextTrue (m2 : List Bool) : Nat → Nat → Nat
  | k, 0 => k
  | k, fuel + 1 => if m2.getD k false then k else nextTrue m2 (k + 1) fuel

/-- The transposition count of the Jaro loop, walking `s1` zipped with its
match flags and the pointer `k` into `s2`. -/
def jwTrans (s2 : JsStr) (m2 : List Bool) : List (Nat × Bool) → Nat → Nat
  | [], _ => 0
  | (c, flag) :: rest, k =>
    if flag then
      (if s2.getD (nextTrue m2 k m2.length) 0 ≠ c then 1 else 0) +
        jwTrans s2 m2 rest (nextTrue m2 k m2.length + 1)
    else jwTrans s2 m2 rest k

/-- The common-prefix length, capped (at 4 in the caller). -/
def commonPrefixLen : JsStr → JsStr → Nat → Nat
  | a :: as, b :: bs, n + 1 =>
    if a = b then 1 + commonPrefixLen as bs n else 0
  | _, _, _ => 0

/-- `jaroWinklerSimilarity`. -/
def jaroWinklerSimilarity (s1 s2 : JsStr) : ℚ :=
  if s1 = s2 then 1
  else if s1.length = 0 ∨ s2.length = 0 then 0
  else
    let mwI : Int := ((max s1.length s2.length) / 2 : Nat) - 1
    let r := jwMatchLoop s2 mwI s1 0 (List.replicate s2.length false)
    if r.2.2 = 0 then 0
    else
      let m : ℚ := (r.2.2 : ℚ)
      let t : ℚ := (jwTrans s2 r.2.1 (s1.zip r.1) 0 : ℚ)
      let jaro := (m / (s1.length : ℚ) + m / (s2.length : ℚ) +
        (m - t / 2) / m) / 3
      jaro + (commonPrefixLen s1 s2 4 : ℚ) * ((1 : ℚ)/10) * (1 - jaro)

/-- `substringScore`. -/
def substringScore (s1 s2 : JsStr) : ℚ :=
  if s1 = s2 then 1
  else if s1.length = 0 ∨ s2.length = 0 then 0
  else
    let shorter := if s1.length < s2.length then s1 else s2
    let longer := if s1.length < s2.length then s2 else s1
    if jsIncludes shorter longer then
      (shorter.length : ℚ) / (longer.length : ℚ)
    else 0

/-- `tokenize`: lower-case, split on whitespace, drop empty tokens. -/
def tokenize (text : JsStr) : List JsStr :=
  (jsSplitWs (text.map jsToLower)).filter (fun w => decide (0 < w.length))

/-- `wordPositionSimilarity`: positionwise word agreement over the longer
token count (the loop stops at the shorter, which `zip` mirrors). -/
def wordPositionSimilarity (s1 s2 : JsStr) : ℚ :=
  let words1 := tokenize s1
  let words2 := tokenize s2
  if words1.length = 0 ∨ words2.length = 0 then 0
  else
    ((((words1.zip words2).filter (fun p => decide (p.1 = p.2))).length : ℚ) /
      ((max words1.length words2.length : Nat) : ℚ))

/-- `exactMatch(normalizedQuery, dbManager)`; the database lookup
`dbManager.getQuestionByNormalizedText` is passed in as a function. -/
def exactMatch (normalizedQuery : JsStr)
    (getQuestionByNormalizedText : JsStr → Option Document) :
    Option MatchResult :=
  match getQuestionByNormalizedText normalizedQuery with
  | none => none
  | some question =>
    let confidence := calculateConfidence .exact 1
      ⟨(normalizedQuery.length : ℚ),
       (question.processed.normalizedQuestion.length : ℚ)⟩
    some
      { question := question
        matchType := .exact
        confidence := confidence
        rawScore := 1
        explanation := explainConfidence .exact confidence 1
        metadata :=
          { tier := 1
            method := .exact_normalized
            candidatesEvaluated := none
            matchedKeywords := none } }

/-- The per-candidate similarity of `fuzzyMatch`:
`levenshtein * 0.6 + jaroWinkler * 0.4`. -/
def fuzzyCandidateScore (normalizedQuery : JsStr) (candidate : Document) :
    ℚ :=
  levenshteinSimilarity normalizedQuery
      candidate.processed.normalizedQuestion * ((3 : ℚ)/5) +
    jaroWinklerSimilarity normalizedQuery
      candidate.processed.normalizedQuestion * ((2 : ℚ)/5)

/-- `fuzzyMatch(normalizedQuery, candidates)`. -/
def fuzzyMatch (normalizedQuery : JsStr) (candidates : List Document) :
    Option MatchResult :=
  if candidates.isEmpty then none
  else
    let limited := candidates.take MATCHING_CONFIG.FUZZY_MAX_CANDIDATES
    let best := limited.foldl
      (fun (acc : Option Document × ℚ) candidate =>
        let similarity := fuzzyCandidateScore normalizedQuery candidate
        if acc.2 < similarity then (some candidate, similarity) else acc)
      (none, 0)
    if best.2 < MATCHING_CONFIG.FUZZY_MIN_SIMILARITY then none
    else
      match best.1 with
      | none => none
      | some bestMatch =>
        let confidence := calculateConfidence .fuzzy best.2
          ⟨(normalizedQuery.length : ℚ),
           (bestMatch.processed.normalizedQuestion.length : ℚ)⟩
        some
          { question := bestMatch
            matchType := .fuzzy
            confidence := confidence
            rawScore := best.2
            explanation := explainConfidence .fuzzy confidence best.2
            metadata :=
              { tier := 3
                method := .fuzzy_similarity
                candidatesEvaluated := some limited.length
                matchedKeywords := none } }

/-- The per-candidate score of `partialMatch`:
`substring * 0.7 + position * 0.3`. -/
def partialCandidateScore (normalizedQuery : JsStr) (candidate : Document) :
    ℚ :=
  substringScore normalizedQuery candidate.processed.normalizedQuestion *
      ((7 : ℚ)/10) +
    wordPositionSimilarity normalizedQuery
      candidate.processed.normalizedQuestion * ((3 : ℚ)/10)

/-- `partialMatch(normalizedQuery, candidates)`. -/
def partialMatch (normalizedQuery : JsStr) (candidates : List Document) :
    Option MatchResult :=
  if candidates.isEmpty then none
  else
    let best := candidates.foldl
      (fun (acc : Option Document × ℚ) candidate =>
        let combinedScore := partialCandidateScore normalizedQuery candidate
        if acc.2 < combinedScore then (some candidate, combinedScore)
        else acc)
      (none, 0)
    if best.2 < MATCHING_CONFIG.PARTIAL_MIN_SCORE then none
    else
      match best.1 with
      | none => none
      | some bestMatch =>
        let confidence := calculateConfidence .partialT best.2
          ⟨(normalizedQuery.length : ℚ),
           (bestMatch.processed.normalizedQuestion.length : ℚ)⟩
        some
          { question := bestMatch
            matchType := .partialT
            confidence := confidence
            rawScore := best.2
            explanation := explainConfidence .partialT confidence best.2
            metadata :=
              { tier := 4
                method := .partial_substring
                candidatesEvaluated := some candidates.length
                matchedKeywords := none } }

/-- The environment of `MatchingEngine`: the IndexedDB manager's queries,
the AI service's reply (Modelled from the spec: `ai-service.js` is not
part of this tree; tier 5 succeeds exactly when the service yields a
successful result carrying a match, here a function of the query), and
the Web Crypto cache-key hash. -/
structure MatchingEnv where
  totalQuestions : Nat
  getQuestionByNormalizedText : JsStr → Option Document
  getQuestionsByKeywords : List JsStr → List Document
  getAllQuestions : List Document
  aiResult : JsStr → Option MatchResult
  cacheKey : JsStr → JsStr

/-- The object `runMatchingPipeline` resolves with: `success`, the match,
the tier (0 on failure), the `source: "ai"` marker of tier 5, and the
failure message. The timing field added by `findAnswer` is not part of the
matching behaviour and is not modelled. -/
structure PipelineResult where
  success : Bool
  matchResult : Option MatchResult
  tier : Nat
  sourceAi : Bool
  message : Option JsStr
deriving DecidableEq, Repr

/-- One guard `result && result.confidence >= options.minConfidence`. -/
def qualifyingResult (r : Option MatchResult) (minConfidence : ℚ) :
    Option MatchResult :=
  match r with
  | some m => if minConfidence ≤ m.confidence then some m else none
  | none => none

/-- An early-exit tier return `{ success: true, match, tier }`. -/
def tierSuccess (m : MatchResult) (tier : Nat) : PipelineResult :=
  ⟨true, some m, tier, false, none⟩

/-- The candidate set for tiers 3 and 4: the keyword fetch when there are
keywords, else (or when that fetch is empty) all questions. -/
def pipelineCandidates (env : MatchingEnv) (keywords : List Keyword) :
    List Document :=
  let fetched := if keywords.isEmpty then []
    else env.getQuestionsByKeywords (keywords.map (fun kw => kw.word))
  if fetched.isEmpty then env.getAllQuestions else fetched

/-- The `No match found` result, with the message chosen as in the
source. -/
def noMatchResult (hasData aiEnabled : Bool) : PipelineResult :=
  ⟨false, none, 0, false, some (
    if !hasData then
      ofStr "No Q&A file uploaded yet. Click the extension icon to upload your questions, or enable AI for instant answers."
    else if !aiEnabled then
      ofStr "No match found in your uploaded files. Enable AI Answering in settings for better results!"
    else
      ofStr "No match found in your database. Enable AI Answering for better results!")⟩

/-- Tier 5 and the failure fallthrough. The second component accumulates
the tiers whose matcher (or the AI service) was invoked. -/
def pipelineTail (env : MatchingEnv) (aiEnabled : Bool)
    (originalQuery : JsStr) (hasData : Bool) (calls : List Nat) :
    PipelineResult × List Nat :=
  if aiEnabled then
    match env.aiResult originalQuery with
    | some m => (⟨true, some m, 5, true, none⟩, calls ++ [5])
    | none => (noMatchResult hasData true, calls ++ [5])
  else (noMatchResult hasData false, calls)

/-- `runMatchingPipeline`, instrumented: alongside the resolved object it
returns the list of tiers whose matcher ran, in evaluation order. -/
def runMatchingPipeline (env : MatchingEnv) (normalizedQuery : JsStr)
    (keywords : List Keyword) (minConfidence : ℚ)
    (fuzzyEnabled partialEnabled aiEnabled : Bool)
    (originalQuery : JsStr) : PipelineResult × List Nat :=
  if 0 < env.totalQuestions then
    match qualifyingResult
        (exactMatch normalizedQuery env.getQuestionByNormalizedText)
        minConfidence with
    | some m => (tierSuccess m 1, [1])
    | none =>
      match qualifyingResult
          (keywordMatch keywords env.getQuestionsByKeywords)
          minConfidence with
      | some m => (tierSuccess m 2, [1, 2])
      | none =>
        match (if fuzzyEnabled then
            qualifyingResult
              (fuzzyMatch normalizedQuery (pipelineCandidates env keywords))
              minConfidence
          else none) with
        | some m =>
          (tierSuccess m 3, [1, 2] ++ [3])
        | none =>
          match (if partialEnabled then
              qualifyingResult
                (partialMatch normalizedQuery
                  (pipelineCandidates env keywords))
                minConfidence
            else none) with
          | some m =>
            (tierSuccess m 4,
              [1, 2] ++ (if fuzzyEnabled then [3] else []) ++ [4])
          | none =>
            pipelineTail env aiEnabled originalQuery true
              ([1, 2] ++ (if fuzzyEnabled then [3] else []) ++
                (if partialEnabled then [4] else []))
  else pipelineTail env aiEnabled originalQuery false []

/-- The qualifying outcome of one tier, as the engine's guards read it:
tiers 3 and 4 yield nothing when disabled, every other index yields
nothing. -/
def tierQualifying (env : MatchingEnv) (normalizedQuery : JsStr)
    (keywords : List Keyword) (minConfidence : ℚ)
    (fuzzyEnabled partialEnabled : Bool) : Nat → Option MatchResult
  | 1 => qualifyingResult
      (exactMatch normalizedQuery env.getQuestionByNormalizedText)
      minConfidence
  | 2 => qualifyingResult
      (keywordMatch keywords env.getQuestionsByKeywords) minConfidence
  | 3 => if fuzzyEnabled then
      qualifyingResult
        (fuzzyMatch normalizedQuery (pipelineCandidates env keywords))
        minConfidence
    else none
  | 4 => if partialEnabled then
      qualifyingResult
        (partialMatch normalizedQuery (pipelineCandidates env keywords))
        minConfidence
    else none
  | _ => none

/-- `ERROR_CODES` reachable from the matching engine's validation. -/
inductive ErrorCode where
  | QUERY_EMPTY
  | QUERY_TOO_LONG
  | UNKNOWN_ERROR
deriving DecidableEq, Repr

/-- The `AppError`s `validateQuery` can throw (code plus the details the
message template reads). -/
inductive AppErrorE where
  | queryEmptyInvalid
  | queryTooShort (len : Nat)
  | queryTooLong (len : Nat)
deriving DecidableEq, Repr

/-- The `code` carried by each error. -/
def errorCodeOf : AppErrorE → ErrorCode
  | .queryEmptyInvalid => .QUERY_EMPTY
  | .queryTooShort _ => .QUERY_EMPTY
  | .queryTooLong _ => .QUERY_TOO_LONG

/-- Decimal rendering for the message template interpolation. -/
def natToDecGo : Nat → Nat → JsStr
  | _, 0 => []
  | n, fuel + 1 =>
    if n < 10 then [48 + n]
    else natToDecGo (n / 10) fuel ++ [48 + n % 10]

/-- Decimal rendering of a natural number. -/
def natToDec (n : Nat) : JsStr := natToDecGo n (n + 1)

/-- `getUserFriendlyMessage` for the codes this path produces. -/
def getUserFriendlyMessage : AppErrorE → JsStr
  | .queryTooLong len =>
    ofStr "Selected text is too long (" ++ natToDec len ++
      ofStr " characters). Maximum is " ++
      natToDec MATCHING_CONFIG.MAX_QUERY_LENGTH ++ ofStr "."
  | _ => ofStr "Please select some text to search."

/-- `validateQuery`: reject the falsy query, then the trimmed length
bounds. -/
def validateQuery (query : JsStr) : Except AppErrorE Unit :=
  if query.isEmpty then .error .queryEmptyInvalid
  else
    let trimmed := jsTrim query
    if trimmed.length < MATCHING_CONFIG.MIN_QUERY_LENGTH then
      .error (.queryTooShort trimmed.length)
    else if MATCHING_CONFIG.MAX_QUERY_LENGTH < trimmed.length then
      .error (.queryTooLong trimmed.length)
    else .ok ()

/-- The raw options object of `findAnswer`: absent fields are `none`. -/
structure RawOptions where
  minConfidence : Option ℚ
  fuzzyEnabled : Option Bool
  partialEnabled : Option Bool
  useCache : Option Bool
  aiEnabled : Option Bool
deriving DecidableEq, Repr

/-- `findAnswer(query)` with no options object. -/
def defaultRawOptions : RawOptions := ⟨none, none, none, none, none⟩

/-- `options.minConfidence || 0.5`: `undefined` and the falsy 0 both fall
back to 0.5. -/
def resolveMinConfidence : Option ℚ → ℚ
  | some v => if v = 0 then (1 : ℚ)/2 else v
  | none => (1 : ℚ)/2

/-- `options.x !== false`: only an explicit `false` disables. -/
def resolveNotFalse : Option Bool → Bool
  | some false => false
  | _ => true

/-- What `findAnswer` returns: a (possibly cached) pipeline result, or the
`handleError` object `{ success: false, error: { code, message, ... } }`. -/
inductive FindAnswerResult where
  | result (r : PipelineResult)
  | errorResult (code : ErrorCode) (message : JsStr)
deriving DecidableEq, Repr

/-- `findAnswer(query, options)` at time `now`, threading the query cache
state and reporting the instrumented tier calls (empty when no matcher
ran). -/
def findAnswer (jsLog : ℚ → ℚ) (env : MatchingEnv)
    (cache : LRUCache JsStr PipelineResult) (now : Int) (query : JsStr)
    (options : RawOptions) :
    (FindAnswerResult × LRUCache JsStr PipelineResult) × List Nat :=
  match validateQuery query with
  | .error e =>
    ((.errorResult (errorCodeOf e) (getUserFriendlyMessage e), cache), [])
  | .ok _ =>
    let minConfidence := resolveMinConfidence options.minConfidence
    let fuzzyEnabled := resolveNotFalse options.fuzzyEnabled
    let partialEnabled := resolveNotFalse options.partialEnabled
    let useCache := resolveNotFalse options.useCache
    let aiEnabled := resolveNotFalse options.aiEnabled
    let checked := if useCache then LRUCache.get cache (env.cacheKey query) now
      else (none, cache)
    match checked with
    | (some cachedResult, cache1) => ((.result cachedResult, cache1), [])
    | (none, cache1) =>
      let pr := runMatchingPipeline env (normalizeForMatching query)
        (extractKeywords jsLog query defaultExtractOptions) minConfidence
        fuzzyEnabled partialEnabled aiEnabled query
      let cache2 :=
        if pr.1.success && pr.1.matchResult.isSome && useCache then
          LRUCache.set cache1 (env.cacheKey query) pr.1 now
        else cache1
      ((.result pr.1, cache2), pr.2)

/-- C3: cascade monotonic short-circuit. If the engine has data, tier k
(k in 1..4) yields a qualifying match (one whose confidence reaches the
caller's minimum), and no earlier tier does, then `runMatchingPipeline`
returns exactly that match with `tier = k`, and every matcher invocation
(including the AI fallback, tier 5) is of a tier at most k — no later
tier is evaluated. -/
theorem cascade_short_circuit (env : MatchingEnv) (normalizedQuery : JsStr)
    (keywords : List Keyword) (minConfidence : ℚ)
    (fuzzyEnabled partialEnabled aiEnabled : Bool) (originalQuery : JsStr)
    (k : Nat) (m : MatchResult)
    (hd : 0 < env.totalQuestions)
    (hk : tierQualifying env normalizedQuery keywords minConfidence
      fuzzyEnabled partialEnabled k = some m)
    (hprev : ∀ j, j < k → tierQualifying env normalizedQuery keywords
      minConfidence fuzzyEnabled partialEnabled j = none) :
    (runMatchingPipeline env normalizedQuery keywords minConfidence
        fuzzyEnabled partialEnabled aiEnabled originalQuery).1
      = tierSuccess m k ∧
    ∀ j ∈ (runMatchingPipeline env normalizedQuery keywords minConfidence
        fuzzyEnabled partialEnabled aiEnabled originalQuery).2, j ≤ k := by
  rcases k with _ | _ | _ | _ | _ | k
  · exact Option.noConfusion hk
  · -- k = 1
    have e1 : qualifyingResult
        (exactMatch normalizedQuery env.getQuestionByNormalizedText)
        minConfidence = some m := hk
    unfold runMatchingPipeline
    rw [if_pos hd, e1]
    refine ⟨rfl, ?_⟩
    intro j hj
    simp at hj
    omega
  · -- k = 2
    have h1 : qualifyingResult
        (exactMatch normalizedQuery env.getQuestionByNormalizedText)
        minConfidence = none := hprev 1 (by omega)
    have e2 : qualifyingResult
        (keywordMatch keywords env.getQuestionsByKeywords)
        minConfidence = some m := hk
    unfold runMatchingPipeline
    rw [if_pos hd, h1, e2]
    refine ⟨rfl, ?_⟩
    intro j hj
    simp at hj
    omega
  · -- k = 3
    have h1 : qualifyingResult
        (exactMatch normalizedQuery env.getQuestionByNormalizedText)
        minConfidence = none := hprev 1 (by omega)
    have h2 : qualifyingResult
        (keywordMatch keywords env.getQuestionsByKeywords)
        minConfidence = none := hprev 2 (by omega)
    have e3 : (if fuzzyEnabled then
        qualifyingResult
          (fuzzyMatch normalizedQuery (pipelineCandidates env keywords))
          minConfidence
      else none) = some m := hk
    unfold runMatchingPipeline
    rw [if_pos hd, h1, h2, e3]
    refine ⟨rfl, ?_⟩
    intro j hj
    simp at hj
    omega
  · -- k = 4
    have h1 : qualifyingResult
        (exactMatch normalizedQuery env.getQuestionByNormalizedText)
        minConfidence = none := hprev 1 (by omega)
    have h2 : qualifyingResult
        (keywordMatch keywords env.getQuestionsByKeywords)
        minConfidence = none := hprev 2 (by omega)
    have h3 : (if fuzzyEnabled then
        qualifyingResult
          (fuzzyMatch normalizedQuery (pipelineCandidates env keywords))
          minConfidence
      else none) = none := hprev 3 (by omega)
    have e4 : (if partialEnabled then
        qualifyingResult
          (partialMatch normalizedQuery (pipelineCandidates env keywords))
          minConfidence
      else none) = some m := hk
    unfold runMatchingPipeline
    rw [if_pos hd, h1, h2, h3, e4]
    refine ⟨rfl, ?_⟩
    intro j hj
    cases fuzzyEnabled <;> simp at hj <;> omega
  · exact Option.noConfusion hk

/-- A one-document database environment for the cascade witness. -/
def engineDocExample : Document := ⟨1, ⟨ofStr "hello there", []⟩⟩

/-- Environment whose exact-match index holds exactly the example
document. -/
def engineEnvExample : MatchingEnv :=
  ⟨1,
   fun s => if s = ofStr "hello there" then some engineDocExample else none,
   fun _ => [], [engineDocExample], fun _ => none, fun k => k⟩

/-- The tier-1 result the witness environment produces. -/
def engineExactResultExample : MatchResult :=
  { question := engineDocExample
    matchType := .exact
    confidence := 1
    rawScore := 1
    explanation := .high .exactMatchAfterNormalization
    metadata :=
      { tier := 1
        method := .exact_normalized
        candidatesEvaluated := none
        matchedKeywords := none } }

/-- Witness for C3 at tier 1 in a concrete environment. -/
theorem cascade_short_circuit_witness :
    (runMatchingPipeline engineEnvExample (ofStr "hello there") []
        ((1 : ℚ)/2) true true true (ofStr "hello there")).1
      = tierSuccess engineExactResultExample 1 ∧
    ∀ j ∈ (runMatchingPipeline engineEnvExample (ofStr "hello there") []
        ((1 : ℚ)/2) true true true (ofStr "hello there")).2, j ≤ 1 :=
  cascade_short_circuit engineEnvExample (ofStr "hello there") []
    ((1 : ℚ)/2) true true true (ofStr "hello there") 1
    engineExactResultExample (by decide) (by decide)
    (by
      intro j hj
      have hj0 : j = 0 := by omega
      subst hj0
      rfl)

/-- C9: a query whose trimmed length is below MIN_QUERY_LENGTH (3) is
rejected by `validateQuery` before anything else runs: `findAnswer`
returns the `handleError` object with `success: false` and code
QUERY_EMPTY (with its user-facing message), no tier matcher and no AI
call happens (the instrumented call list is empty), and the query cache
is returned unchanged (nothing is read into recency order or written). -/
theorem findAnswer_short_query_rejected (jsLog : ℚ → ℚ)
    (env : MatchingEnv) (cache : LRUCache JsStr PipelineResult)
    (now : Int) (query : JsStr) (options : RawOptions)
    (h : (jsTrim query).length < MATCHING_CONFIG.MIN_QUERY_LENGTH) :
    findAnswer jsLog env cache now query options
      = ((.errorResult .QUERY_EMPTY
          (ofStr "Please select some text to search."), cache), []) := by
  unfold findAnswer validateQuery
  by_cases he : query.isEmpty
  · rw [if_pos he]
    rfl
  · rw [if_neg he]
    dsimp only
    rw [if_pos h]
    rfl

/-- Witness for C9 at the two-character query "ab". -/
theorem findAnswer_short_query_rejected_witness :
    findAnswer (fun _ => 1) engineEnvExample
        (⟨100, 3600000, []⟩ : LRUCache JsStr PipelineResult) 0
        (ofStr "ab") defaultRawOptions
      = ((.errorResult .QUERY_EMPTY
          (ofStr "Please select some text to search."),
         (⟨100, 3600000, []⟩ : LRUCache JsStr PipelineResult)), []) :=
  findAnswer_short_query_rejected (fun _ => 1) engineEnvExample
    ⟨100, 3600000, []⟩ 0 (ofStr "ab") defaultRawOptions (by decide)
